import Mathlib

/-!
hash_table.c: a separate-chaining hash table keyed by C strings

A shallow embedding of `src/hash_table.c` / `src/hash_table.h`.

Conventions of the embedding

* A key is the sequence of `char` values of a NUL-terminated string (the
  terminator excluded), each already promoted to `int` the way `*str` is in the
  hash loop.  With a signed `char` the values lie in `-128..127`.
* A data reference (`void*`) is an address, a natural number; `NULL` is `0`.
* A chain (the `next`-linked list hanging off a slot) is the list of its nodes,
  head first.  The slot array is the list of its chains.
* `int` arithmetic inside the hash function wraps at 32 bits.  The counters
  `N` and `M` of the table are naturals: a table of `2^30` slots, where `2*M`
  would no longer fit an `int`, is outside the model, and so is a failing
  `malloc`/`calloc`.
* An access `array[index]` with `index` outside `0..M-1` is undefined behaviour
  in C; the operations return `none` there.
* `float` is IEEE 754 single precision: the conversions `(float)N`, `(float)M`
  and the division in `get_load_factor_alpha` each round to 24 significant binary
  digits, to nearest with ties to even.  The values that occur lie between
  `2^-31` and `2^31`, away from overflow and from subnormal numbers.  The result
  is kept as the rational number it denotes, and the comparison with `0.75`,
  done in `double`, is exact.
* Calls of the destructor `free_data` are recorded in the ghost field `calls`.
-/

namespace HashTable

/-- The `char`s of a C string, promoted to `int`, without the terminating NUL. -/
abbrev Key := List Int

/-- A `void*` data reference. -/
abbrev Data := Nat

/-- The null pointer. -/
def NULL : Data := 0

/-- `#define TRUE 1` -/
def TRUE : Int := 1

/-- `#define FALSE 0` -/
def FALSE : Int := 0

/-- `struct node`; the `next` link is the tail of the chain the node sits in. -/
structure NODE where
  key : Key
  data : Data
deriving DecidableEq, Repr

/-- `struct table`.  `free_data` says whether a destructor was configured;
`calls` is ghost state, the arguments of the destructor calls made so far,
most recent first. -/
structure HASH_TABLE where
  array : List (List NODE)
  N : Nat
  M : Nat
  free_data : Bool
  calls : List Data
deriving DecidableEq, Repr

/-- Two's complement wrap-around of an `int` result to 32 bits. -/
def wrap32 (x : Int) : Int := (x + 2147483648) % 4294967296 - 2147483648

/-- The loop of `_hash_string_efficient`: `hash = (a*hash + *str) % M` with
`a = 127`; `%` truncates towards zero as in C. -/
def hash_loop (M : Int) : Int → Key → Int
  | hash, [] => hash
  | hash, c :: str => hash_loop M (Int.tmod (wrap32 (wrap32 (127 * hash) + c)) M) str

/-- `int _hash_string_efficient(const char* str, int M)` -/
def _hash_string_efficient (str : Key) (M : Int) : Int :=
  hash_loop M 0 str

/-- `new_node(key, data)` -/
def new_node (key : Key) (data : Data) : NODE := { key := key, data := data }

/-- `hash_table_create(M, free_data)`: `M` empty slots, `N = 0`. -/
def hash_table_create (M : Nat) (free_data : Bool) : HASH_TABLE :=
  { array := List.replicate M [], N := 0, M := M, free_data := free_data, calls := [] }

/-- The two statements `elem->next = array[index]; array[index] = elem;`.
`none` when `index` is not an index of the array. -/
def push_front (array : List (List NODE)) (index : Int) (elem : NODE) :
    Option (List (List NODE)) :=
  if 0 ≤ index ∧ index < array.length then
    some (array.set index.toNat (elem :: array.getD index.toNat []))
  else none

/-- Inner loop of `hash_table_resize`: walk one old chain head to tail and
prepend each node to its slot of `new_array`, computed for capacity `M2`. -/
def rehash_chain (M2 : Nat) : List NODE → List (List NODE) → Option (List (List NODE))
  | [], new_array => some new_array
  | elem :: next, new_array =>
    match push_front new_array (_hash_string_efficient elem.key M2) elem with
    | none => none
    | some new_array1 => rehash_chain M2 next new_array1

/-- Outer loop of `hash_table_resize`: the old slots in index order. -/
def rehash_slots (M2 : Nat) : List (List NODE) → List (List NODE) → Option (List (List NODE))
  | [], new_array => some new_array
  | chain :: slots, new_array =>
    match rehash_chain M2 chain new_array with
    | none => none
    | some new_array1 => rehash_slots M2 slots new_array1

/-- `hash_table_resize(table)` -/
def hash_table_resize (table : HASH_TABLE) : Option HASH_TABLE :=
  match rehash_slots (2 * table.M) table.array (List.replicate (2 * table.M) []) with
  | none => none
  | some new_array => some { table with array := new_array, M := 2 * table.M }

/-- The integer nearest to the quotient `a / b`, a tie going to the even one:
the rounding of IEEE 754 in its default mode. -/
def round_half_even (a b : Nat) : Nat :=
  if 2 * (a % b) < b then a / b
  else if b < 2 * (a % b) then a / b + 1
  else if (a / b) % 2 = 0 then a / b
  else a / b + 1

/-- Position of the leading binary digit: for `0 < n ≤ fuel`,
`floor_log2 fuel n` is the `k` with `2^k ≤ n < 2^(k+1)`. -/
def floor_log2 : Nat → Nat → Nat
  | 0, _ => 0
  | fuel + 1, n => if n < 2 then 0 else floor_log2 fuel (n / 2) + 1

/-- The conversion `(float)n` of a non-negative `int`: `n` rounded to 24
significant binary digits (single precision), which is `n` itself below `2^24`.
The result is again an integer. -/
def float_of_int (n : Nat) : Nat :=
  if n < 16777216 then n
  else round_half_even n (2 ^ (floor_log2 n n - 23)) * 2 ^ (floor_log2 n n - 23)

/-- For `a, b > 0` the `t` with `2^(t-1) ≤ (a/b) * 2^floor_log2(b) < 2^t`:
it places the leading binary digit of the quotient `a / b`. -/
def quotient_exponent (a b : Nat) : Nat :=
  if b * 2 ^ floor_log2 a a ≤ a * 2 ^ floor_log2 b b then floor_log2 a a + 1
  else floor_log2 a a

/-- The single-precision quotient `a / b` of two integer-valued floats, as a
numerator and a denominator: the exact quotient is scaled by a power of two into
`[2^23, 2^24)`, rounded with `round_half_even`, and scaled back.  With `a = 0`
the quotient is `0`; `b = 0` (a division by zero, for a table of capacity 0)
is given `0` too. -/
def float_div_parts (a b : Nat) : Nat × Nat :=
  if a = 0 ∨ b = 0 then (0, 1)
  else if floor_log2 b b + 24 ≤ quotient_exponent a b then
    (round_half_even a (b * 2 ^ (quotient_exponent a b - floor_log2 b b - 24)) *
      2 ^ (quotient_exponent a b - floor_log2 b b - 24), 1)
  else
    (round_half_even (a * 2 ^ (floor_log2 b b + 24 - quotient_exponent a b)) b,
      2 ^ (floor_log2 b b + 24 - quotient_exponent a b))

/-- The value of the single-precision quotient `a / b`. -/
def float_div (a b : Nat) : ℚ :=
  ((float_div_parts a b).1 : ℚ) / ((float_div_parts a b).2 : ℚ)

/-- `get_load_factor_alpha(table)`: `((float)table->N)/((float)table->M)`. -/
def get_load_factor_alpha (table : HASH_TABLE) : ℚ :=
  float_div (float_of_int table.N) (float_of_int table.M)

/-- `#define MAX_LOAD_FACTOR 0.75` -/
def MAX_LOAD_FACTOR : ℚ := 3 / 4

/-- The comparison `get_load_factor_alpha(table) > MAX_LOAD_FACTOR` is decided
on the numerator and denominator of the quotient. -/
instance load_factor_decidable (table : HASH_TABLE) :
    Decidable (get_load_factor_alpha table > MAX_LOAD_FACTOR) :=
  decidable_of_iff
    (3 * (float_div_parts (float_of_int table.N) (float_of_int table.M)).2 <
      4 * (float_div_parts (float_of_int table.N) (float_of_int table.M)).1) (by
    unfold get_load_factor_alpha float_div MAX_LOAD_FACTOR
    have hpos : 0 < (float_div_parts (float_of_int table.N) (float_of_int table.M)).2 := by
      unfold float_div_parts
      split_ifs
      · exact Nat.one_pos
      · exact Nat.one_pos
      · exact Nat.two_pow_pos _
    generalize float_div_parts (float_of_int table.N) (float_of_int table.M) = p at *
    have hq : (0 : ℚ) < (p.2 : ℚ) := by exact_mod_cast hpos
    rw [gt_iff_lt, lt_div_iff₀ hq]
    constructor
    · intro h
      have h2 : ((3 * p.2 : ℕ) : ℚ) < ((4 * p.1 : ℕ) : ℚ) := by exact_mod_cast h
      push_cast at h2
      linarith
    · intro h
      have h2 : ((3 * p.2 : ℕ) : ℚ) < ((4 * p.1 : ℕ) : ℚ) := by
        push_cast
        linarith
      exact_mod_cast h2)

/-- `hash_table_insert(table, key, data)` -/
def hash_table_insert (table : HASH_TABLE) (key : Key) (data : Data) : Option HASH_TABLE :=
  match (if get_load_factor_alpha table > MAX_LOAD_FACTOR then hash_table_resize table
         else some table) with
  | none => none
  | some table1 =>
    match push_front table1.array (_hash_string_efficient key table1.M) (new_node key data) with
    | none => none
    | some array1 => some { table1 with array := array1, N := table1.N + 1 }

/-- The scan of `hash_table_get` down one chain: the data of the first node
whose key compares equal, `NULL` when there is none. -/
def chain_get (key : Key) : List NODE → Data
  | [] => NULL
  | elem :: next => if elem.key = key then elem.data else chain_get key next

/-- `hash_table_get(table, key)` -/
def hash_table_get (table : HASH_TABLE) (key : Key) : Option Data :=
  let index := _hash_string_efficient key table.M
  if 0 ≤ index ∧ index < table.array.length then
    some (chain_get key (table.array.getD index.toNat []))
  else none

/-- `hash_table_contains(table, key)` -/
def hash_table_contains (table : HASH_TABLE) (key : Key) : Option Int :=
  match hash_table_get table key with
  | none => none
  | some p => if p ≠ NULL then some TRUE else some FALSE

/-- `free_node(elem, free_data)`: the destructor calls it makes. -/
def free_node (elem : NODE) (free_data : Bool) : List Data :=
  if free_data = false then [] else [elem.data]

/-- The chain surgery of `hash_table_remove`: unlink the first node whose key
compares equal.  Returns the unlinked node and the remaining chain, `none` when
the chain is exhausted without a match. -/
def chain_unlink (key : Key) : List NODE → Option (NODE × List NODE)
  | [] => none
  | elem :: next =>
    if elem.key = key then some (elem, next)
    else
      match chain_unlink key next with
      | none => none
      | some (found, next1) => some (found, elem :: next1)

/-- `hash_table_remove(table, key)`: the returned `int` and the table
afterwards.  `N` is not touched. -/
def hash_table_remove (table : HASH_TABLE) (key : Key) : Option (Int × HASH_TABLE) :=
  let index := _hash_string_efficient key table.M
  if 0 ≤ index ∧ index < table.array.length then
    match chain_unlink key (table.array.getD index.toNat []) with
    | none => some (FALSE, table)
    | some (elem, chain1) =>
      some (TRUE, { table with
        array := table.array.set index.toNat chain1,
        calls := free_node elem table.free_data ++ table.calls })
  else none

/-- One call of the public interface that changes the table. -/
inductive Op where
  | insert (key : Key) (data : Data)
  | remove (key : Key)
deriving DecidableEq, Repr

/-- Apply one call to a table. -/
def step (table : HASH_TABLE) : Op → Option HASH_TABLE
  | Op.insert key data => hash_table_insert table key data
  | Op.remove key => (hash_table_remove table key).map Prod.snd

/-- Apply a sequence of calls, first call first. -/
def run (table : HASH_TABLE) : List Op → Option HASH_TABLE
  | [] => some table
  | op :: ops =>
    match step table op with
    | none => none
    | some table1 => run table1 ops

/-- The loop of `_hash_string_pseudo_universal`:
`hash = (a*hash + *str) % M; a = a*b % (M-1);` with `b = 27183`.
A `%` by zero is undefined in C; the loop returns `none` there. -/
def pseudo_universal_loop (M : Int) : Int → Int → Key → Option Int
  | hash, _, [] => some hash
  | hash, a, c :: str =>
    if M = 0 then none
    else if M - 1 = 0 then none
    else
      pseudo_universal_loop M (Int.tmod (wrap32 (wrap32 (a * hash) + c)) M)
        (Int.tmod (wrap32 (a * 27183)) (M - 1)) str

/-- `int _hash_string_pseudo_universal(const char* str, int M)`, with
`hash = 0` and `a = 31415` at loop entry. -/
def _hash_string_pseudo_universal (str : Key) (M : Int) : Option Int :=
  pseudo_universal_loop M 0 31415 str

/-- Inner loop of `hash_table_free`: `free_node` on every node of one chain,
head first.  The destructor calls are pushed on the log `calls`. -/
def free_chain (free_data : Bool) : List NODE → List Data → List Data
  | [], calls => calls
  | elem :: next, calls => free_chain free_data next (free_node elem free_data ++ calls)

/-- Outer loop of `hash_table_free`: the slots in index order. -/
def free_slots (free_data : Bool) : List (List NODE) → List Data → List Data
  | [], calls => calls
  | chain :: slots, calls => free_slots free_data slots (free_chain free_data chain calls)

/-- `hash_table_free(table)`: the table is gone afterwards; what remains is the
log of destructor calls, most recent first. -/
def hash_table_free (table : HASH_TABLE) : List Data :=
  free_slots table.free_data table.array table.calls

/-! ## Vocabulary of the statements -/

/-- The chain of slot `i`; empty for an `i` beyond the array. -/
def bucket (array : List (List NODE)) (i : Nat) : List NODE := array.getD i []

/-- Every node of the table: slot by slot, each chain head first. -/
def all_entries (table : HASH_TABLE) : List NODE := table.array.flatten

/-- The nodes of a list whose key is `key`, in the order of the list. -/
def with_key (key : Key) (l : List NODE) : List NODE :=
  l.filter (fun e => decide (e.key = key))

/-- The chain that `hash_table_get` and `hash_table_remove` scan for `key`. -/
def slot_chain (table : HASH_TABLE) (key : Key) : List NODE :=
  bucket table.array (_hash_string_efficient key table.M).toNat

/-- The data of the first node of a list, `NULL` for the empty list. -/
def first_data : List NODE → Data
  | [] => NULL
  | e :: _ => e.data

/-- Every node sits in the slot its key hashes to under capacity `M`. -/
def SlotInv (M : Nat) (array : List (List NODE)) : Prop :=
  ∀ i e, e ∈ bucket array i → _hash_string_efficient e.key M = (i : Int)

/-- Well-formed table: `M` positive slots, every node in the slot of its key. -/
def WF (table : HASH_TABLE) : Prop :=
  table.array.length = table.M ∧ 0 < table.M ∧ SlotInv table.M table.array

/-- A table obtained from `hash_table_create` with `M > 0` by a sequence of
`hash_table_insert` and `hash_table_remove` calls, each of them defined. -/
def Reachable (table : HASH_TABLE) : Prop :=
  ∃ (M : Nat) (fd : Bool) (ops : List Op),
    0 < M ∧ run (hash_table_create M fd) ops = some table

/-- The data of the `hash_table_insert` calls for `key` in a sequence of calls,
in call order. -/
def inserts_of (key : Key) : List Op → List Data
  | [] => []
  | Op.insert k d :: ops => if k = key then d :: inserts_of key ops else inserts_of key ops
  | Op.remove _ :: ops => inserts_of key ops

/-- Reference model of "last inserted wins", following the specification: the
data of the live entries of `key`, most recently inserted first.  Starting from
the stack `s`, an insert of `key` pushes its data and a remove of `key` drops
the newest entry; calls for other keys change nothing. -/
def newest_first (key : Key) : List Data → List Op → List Data
  | s, [] => s
  | s, Op.insert k d :: ops =>
    if k = key then newest_first key (d :: s) ops else newest_first key s ops
  | s, Op.remove k :: ops =>
    if k = key then newest_first key s.tail ops else newest_first key s ops

/-- Whether the call resizes the table: an insert at a load factor above the
threshold. -/
def resizes_on (table : HASH_TABLE) : Op → Bool
  | Op.insert _ _ => decide (get_load_factor_alpha table > MAX_LOAD_FACTOR)
  | Op.remove _ => false

/-- Along the run of `ops` from `table`, no resize happens while `key` has two
or more nodes in the table. -/
def order_kept (key : Key) : HASH_TABLE → List Op → Bool
  | _, [] => true
  | table, op :: ops =>
    (!(resizes_on table op) || decide ((with_key key (all_entries table)).length ≤ 1)) &&
      (match step table op with
       | none => true
       | some table1 => order_kept key table1 ops)

/-- Reference value for `_hash_string_efficient`, following the specification:
the polynomial `c_0*127^(n-1) + c_1*127^(n-2) + ... + c_(n-1)` of the bytes
`c_0 ... c_(n-1)` of the key, `0` for the empty key. -/
def poly_value : Key → Int
  | [] => 0
  | c :: str => c * 127 ^ str.length + poly_value str

/-- The table of `m + 1` slots whose slot 0 holds `n` nodes, all with the empty
key "" (which hashes to 0) and data `d`, and whose counter `N` is `n`: what `n`
inserts of ("", d) leave behind as long as none of them resizes. -/
def filled_table (n m : Nat) (fd : Bool) (d : Data) : HASH_TABLE :=
  { array := List.replicate n (new_node [] d) :: List.replicate m [],
    N := n, M := m + 1, free_data := fd, calls := [] }

/-! ## Lists of chains -/

theorem bucket_set_self (array : List (List NODE)) (i : Nat) (x : List NODE)
    (h : i < array.length) : bucket (array.set i x) i = x := by
  simp [bucket, List.getD_eq_getElem?_getD, List.getElem?_set, h]

theorem bucket_set_ne (array : List (List NODE)) (i j : Nat) (x : List NODE)
    (h : i ≠ j) : bucket (array.set i x) j = bucket array j := by
  simp [bucket, List.getD_eq_getElem?_getD, List.getElem?_set, h]

theorem bucket_replicate (n i : Nat) : bucket (List.replicate n []) i = [] := by
  simp only [bucket, List.getD_eq_getElem?_getD, List.getElem?_replicate]
  split <;> rfl

theorem bucket_of_length_le (array : List (List NODE)) (i : Nat) (h : array.length ≤ i) :
    bucket array i = [] := by
  simp [bucket, List.getD_eq_getElem?_getD, List.getElem?_eq_none h]

theorem mem_flatten_bucket (array : List (List NODE)) (e : NODE) (h : e ∈ array.flatten) :
    ∃ i, i < array.length ∧ e ∈ bucket array i := by
  rw [List.mem_flatten] at h
  obtain ⟨l, hl, he⟩ := h
  obtain ⟨i, hi, rfl⟩ := List.getElem_of_mem hl
  refine ⟨i, hi, ?_⟩
  simpa [bucket, List.getD_eq_getElem?_getD, List.getElem?_eq_getElem hi] using he

theorem flatten_set_cons_perm (array : List (List NODE)) (i : Nat) (e : NODE)
    (h : i < array.length) :
    (array.set i (e :: bucket array i)).flatten.Perm (e :: array.flatten) := by
  induction array generalizing i with
  | nil => simp at h
  | cons x xs ih =>
    cases i with
    | zero => simp [bucket]
    | succ i =>
      have hi : i < xs.length := by simpa using h
      have h1 := ih i hi
      simp only [List.set_cons_succ, List.flatten_cons, bucket, List.getD_cons_succ] at h1 ⊢
      exact (List.Perm.append_left x h1).trans List.perm_middle

theorem filter_flatten_nil (p : NODE → Bool) (array : List (List NODE))
    (h : ∀ j, (bucket array j).filter p = []) : array.flatten.filter p = [] := by
  induction array with
  | nil => rfl
  | cons x xs ih =>
    have h0 : x.filter p = [] := by simpa [bucket] using h 0
    have hs : ∀ j, (bucket xs j).filter p = [] := by
      intro j
      simpa [bucket] using h (j + 1)
    simp [List.flatten_cons, List.filter_append, h0, ih hs]

theorem filter_flatten_single (p : NODE → Bool) (array : List (List NODE)) (i : Nat)
    (h : ∀ j, j ≠ i → (bucket array j).filter p = []) :
    array.flatten.filter p = (bucket array i).filter p := by
  induction array generalizing i with
  | nil => simp [bucket]
  | cons x xs ih =>
    cases i with
    | zero =>
      have hs : ∀ j, (bucket xs j).filter p = [] := by
        intro j
        simpa [bucket] using h (j + 1) (by omega)
      simp [List.flatten_cons, List.filter_append, filter_flatten_nil p xs hs, bucket]
    | succ i =>
      have h0 : x.filter p = [] := by simpa [bucket] using h 0 (by omega)
      have hs : ∀ j, j ≠ i → (bucket xs j).filter p = [] := by
        intro j hj
        simpa [bucket] using h (j + 1) (by omega)
      simp [List.flatten_cons, List.filter_append, h0, ih i hs, bucket]

/-! ## Chains -/

theorem with_key_cons (key : Key) (e : NODE) (l : List NODE) :
    with_key key (e :: l) = if e.key = key then e :: with_key key l else with_key key l := by
  unfold with_key
  by_cases h : e.key = key <;> simp [List.filter_cons, h]

theorem with_key_append (key : Key) (l₁ l₂ : List NODE) :
    with_key key (l₁ ++ l₂) = with_key key l₁ ++ with_key key l₂ := by
  simp [with_key, List.filter_append]

theorem with_key_eq_nil (key : Key) (l : List NODE) :
    with_key key l = [] ↔ ∀ e ∈ l, e.key ≠ key := by
  simp [with_key, List.filter_eq_nil_iff]

theorem mem_with_key (key : Key) (l : List NODE) (e : NODE) :
    e ∈ with_key key l ↔ e ∈ l ∧ e.key = key := by
  simp [with_key, List.mem_filter]

theorem chain_get_eq (key : Key) (l : List NODE) :
    chain_get key l = first_data (with_key key l) := by
  induction l with
  | nil => rfl
  | cons e l ih =>
    rw [chain_get, with_key_cons]
    by_cases h : e.key = key
    · simp [h, first_data]
    · simp [h, ih]

theorem chain_unlink_none (key : Key) (l : List NODE) :
    chain_unlink key l = none ↔ with_key key l = [] := by
  induction l with
  | nil => simp [chain_unlink, with_key]
  | cons a l ih =>
    rw [chain_unlink, with_key_cons]
    by_cases ha : a.key = key
    · simp [ha]
    · simp only [ha, if_false]
      rw [← ih]
      cases chain_unlink key l with
      | none => simp
      | some r => simp

theorem chain_unlink_some (key : Key) (l : List NODE) (e : NODE) (l1 : List NODE)
    (h : chain_unlink key l = some (e, l1)) :
    ∃ pre post, l = pre ++ e :: post ∧ l1 = pre ++ post ∧ e.key = key ∧
      ∀ x ∈ pre, x.key ≠ key := by
  induction l generalizing l1 with
  | nil => simp [chain_unlink] at h
  | cons a l ih =>
    rw [chain_unlink] at h
    by_cases ha : a.key = key
    · simp only [ha, if_true, Option.some.injEq, Prod.mk.injEq] at h
      obtain ⟨rfl, rfl⟩ := h
      exact ⟨[], l, rfl, rfl, ha, by simp⟩
    · simp only [ha, if_false] at h
      cases hr : chain_unlink key l with
      | none => simp [hr] at h
      | some r =>
        obtain ⟨found, next1⟩ := r
        simp only [hr, Option.some.injEq, Prod.mk.injEq] at h
        obtain ⟨rfl, rfl⟩ := h
        obtain ⟨pre, post, hl, hl1, he, hpre⟩ := ih next1 hr
        refine ⟨a :: pre, post, by simp [hl], by simp [hl1], he, ?_⟩
        intro x hx
        rcases List.mem_cons.mp hx with rfl | hx
        · exact ha
        · exact hpre x hx

theorem with_key_of_split (key : Key) (pre post : List NODE) (e : NODE)
    (he : e.key = key) (hpre : ∀ x ∈ pre, x.key ≠ key) :
    with_key key (pre ++ e :: post) = e :: with_key key post ∧
      with_key key (pre ++ post) = with_key key post := by
  have h0 : with_key key pre = [] := (with_key_eq_nil key pre).mpr hpre
  simp [with_key_append, with_key_cons, h0, he]

theorem with_key_other_of_split (key key1 : Key) (pre post : List NODE) (e : NODE)
    (he : e.key = key) (hne : key1 ≠ key) :
    with_key key1 (pre ++ e :: post) = with_key key1 (pre ++ post) := by
  have : ¬ e.key = key1 := by
    rw [he]
    exact fun h => hne h.symm
  simp [with_key_append, with_key_cons, this]

/-! ## Range of the hash function -/

theorem hash_loop_lt (M : Int) (hM : 0 < M) (str : Key) (hash : Int) (h : hash < M) :
    hash_loop M hash str < M := by
  induction str generalizing hash with
  | nil => simpa [hash_loop] using h
  | cons c str ih =>
    rw [hash_loop]
    exact ih _ (Int.tmod_lt_of_pos _ hM)

theorem hash_lt (str : Key) (M : Nat) (hM : 0 < M) : _hash_string_efficient str M < (M : Int) := by
  have h : (0 : Int) < (M : Int) := by exact_mod_cast hM
  exact hash_loop_lt M h str 0 h

/-- With every node in the slot of its key, the nodes of key `key` in the whole
table are those of the one chain `key` hashes to. -/
theorem with_key_flatten (M : Nat) (array : List (List NODE)) (h : SlotInv M array) (key : Key) :
    with_key key array.flatten =
      with_key key (bucket array (_hash_string_efficient key M).toNat) := by
  unfold with_key
  apply filter_flatten_single
  intro j hj
  rw [List.filter_eq_nil_iff]
  intro e he hk
  have hk1 : e.key = key := by simpa using hk
  have := h j e he
  rw [hk1] at this
  apply hj
  rw [this]
  simp

/-! ## Prepending a node to a slot -/

theorem push_front_some (array : List (List NODE)) (index : Int) (elem : NODE)
    (array1 : List (List NODE)) (h : push_front array index elem = some array1) :
    0 ≤ index ∧ index.toNat < array.length ∧
      array1 = array.set index.toNat (elem :: bucket array index.toNat) := by
  unfold push_front at h
  split at h
  · rename_i hc
    refine ⟨hc.1, ?_, ?_⟩
    · exact (Int.toNat_lt hc.1).mpr hc.2
    · simpa [bucket] using h.symm
  · cases h

theorem push_front_defined (array : List (List NODE)) (index : Int) (elem : NODE)
    (h0 : 0 ≤ index) (h1 : index < array.length) :
    push_front array index elem =
      some (array.set index.toNat (elem :: bucket array index.toNat)) := by
  unfold push_front
  rw [if_pos ⟨h0, h1⟩]
  rfl

theorem slotInv_set_cons (M : Nat) (array : List (List NODE)) (e : NODE) (i : Nat)
    (hi : i < array.length) (hinv : SlotInv M array)
    (he : _hash_string_efficient e.key M = (i : Int)) :
    SlotInv M (array.set i (e :: bucket array i)) := by
  intro j x hx
  by_cases hj : i = j
  · subst hj
    rw [bucket_set_self _ _ _ hi] at hx
    rcases List.mem_cons.mp hx with rfl | hx
    · exact he
    · exact hinv i x hx
  · rw [bucket_set_ne _ _ _ _ hj] at hx
    exact hinv j x hx

theorem with_key_set_cons (M : Nat) (array : List (List NODE)) (e : NODE) (i : Nat)
    (hi : i < array.length) (hinv : SlotInv M array)
    (he : _hash_string_efficient e.key M = (i : Int)) (key : Key) :
    with_key key (array.set i (e :: bucket array i)).flatten =
      if e.key = key then e :: with_key key array.flatten else with_key key array.flatten := by
  rw [with_key_flatten M _ (slotInv_set_cons M array e i hi hinv he) key,
    with_key_flatten M array hinv key]
  by_cases hk : e.key = key
  · have hidx : (_hash_string_efficient key M).toNat = i := by
      rw [← hk, he]
      simp
    rw [hidx, bucket_set_self _ _ _ hi, with_key_cons, if_pos hk]
  · by_cases hidx : i = (_hash_string_efficient key M).toNat
    · rw [← hidx, bucket_set_self _ _ _ hi, with_key_cons, if_neg hk]
    · rw [bucket_set_ne _ _ _ _ hidx]
      simp [hk]

/-! ## Rehashing -/

theorem rehash_chain_spec (M2 : Nat) (l : List NODE) (array array1 : List (List NODE))
    (hlen : array.length = M2) (hinv : SlotInv M2 array)
    (h : rehash_chain M2 l array = some array1) :
    array1.length = M2 ∧ SlotInv M2 array1 ∧
      (∀ key, with_key key array1.flatten =
        (with_key key l).reverse ++ with_key key array.flatten) ∧
      array1.flatten.Perm (l ++ array.flatten) ∧
      ∀ e ∈ l, 0 ≤ _hash_string_efficient e.key M2 := by
  induction l generalizing array with
  | nil =>
    simp only [rehash_chain, Option.some.injEq] at h
    subst h
    simp [hlen, hinv, with_key]
  | cons e l ih =>
    rw [rehash_chain] at h
    cases hp : push_front array (_hash_string_efficient e.key M2) e with
    | none => simp [hp] at h
    | some array2 =>
      simp only [hp] at h
      obtain ⟨h0, hlt, harr⟩ := push_front_some _ _ _ _ hp
      have hidx : _hash_string_efficient e.key M2 =
          (((_hash_string_efficient e.key M2).toNat : Nat) : Int) :=
        (Int.toNat_of_nonneg h0).symm
      have hlen2 : array2.length = M2 := by rw [harr, List.length_set, hlen]
      have hinv2 : SlotInv M2 array2 := by
        rw [harr]
        exact slotInv_set_cons M2 array e _ hlt hinv hidx
      obtain ⟨r1, r2, r3, r4, r5⟩ := ih array2 hlen2 hinv2 h
      refine ⟨r1, r2, ?_, ?_, ?_⟩
      · intro key
        rw [r3 key, harr, with_key_set_cons M2 array e _ hlt hinv hidx key, with_key_cons]
        by_cases hk : e.key = key <;> simp [hk]
      · refine r4.trans ?_
        rw [harr]
        refine (List.Perm.append_left l (flatten_set_cons_perm array _ e hlt)).trans ?_
        exact List.perm_middle
      · intro x hx
        rcases List.mem_cons.mp hx with rfl | hx
        · exact h0
        · exact r5 x hx

theorem rehash_chain_append (M2 : Nat) (l₁ l₂ : List NODE) (array : List (List NODE)) :
    rehash_chain M2 (l₁ ++ l₂) array =
      (rehash_chain M2 l₁ array).bind (rehash_chain M2 l₂) := by
  induction l₁ generalizing array with
  | nil => rfl
  | cons e l ih =>
    simp only [List.cons_append, rehash_chain]
    cases push_front array (_hash_string_efficient e.key M2) e with
    | none => rfl
    | some array2 => exact ih array2

theorem rehash_slots_eq (M2 : Nat) (slots : List (List NODE)) (array : List (List NODE)) :
    rehash_slots M2 slots array = rehash_chain M2 slots.flatten array := by
  induction slots generalizing array with
  | nil => rfl
  | cons c slots ih =>
    rw [rehash_slots, List.flatten_cons, rehash_chain_append]
    cases rehash_chain M2 c array with
    | none => rfl
    | some array2 => exact ih array2

theorem slotInv_replicate (M n : Nat) : SlotInv M (List.replicate n []) := by
  intro i e he
  rw [bucket_replicate] at he
  cases he

theorem flatten_replicate_nil (n : Nat) :
    (List.replicate n ([] : List NODE)).flatten = [] := by
  induction n with
  | zero => rfl
  | succ n ih => simp [List.replicate_succ, ih]

/-! ## `hash_table_resize` -/

theorem resize_spec (t t1 : HASH_TABLE) (hwf : WF t) (h : hash_table_resize t = some t1) :
    WF t1 ∧ t1.M = 2 * t.M ∧ t1.N = t.N ∧ t1.free_data = t.free_data ∧ t1.calls = t.calls ∧
      (∀ key, with_key key (all_entries t1) = (with_key key (all_entries t)).reverse) ∧
      (all_entries t1).Perm (all_entries t) ∧
      ∀ e ∈ all_entries t, 0 ≤ _hash_string_efficient e.key ((2 * t.M : Nat) : Int) := by
  unfold hash_table_resize at h
  rw [rehash_slots_eq] at h
  cases hr : rehash_chain (2 * t.M) t.array.flatten (List.replicate (2 * t.M) []) with
  | none => simp [hr] at h
  | some array1 =>
    simp only [hr, Option.some.injEq] at h
    subst h
    obtain ⟨r1, r2, r3, r4, r5⟩ := rehash_chain_spec (2 * t.M) t.array.flatten _ array1
      (List.length_replicate _ _) (slotInv_replicate _ _) hr
    obtain ⟨_, hpos, _⟩ := hwf
    refine ⟨⟨r1, by simpa using hpos, r2⟩, rfl, rfl, rfl, rfl, ?_, ?_, r5⟩
    · intro key
      have := r3 key
      simpa [all_entries, flatten_replicate_nil, with_key] using this
    · simpa [all_entries, flatten_replicate_nil] using r4

theorem floor_log2_spec (fuel n : Nat) (hn : 0 < n) (hf : n ≤ fuel) :
    2 ^ floor_log2 fuel n ≤ n ∧ n < 2 ^ (floor_log2 fuel n + 1) := by
  induction fuel generalizing n with
  | zero => omega
  | succ fuel ih =>
    rw [floor_log2]
    by_cases h2 : n < 2
    · rw [if_pos h2]
      simp
      omega
    · rw [if_neg h2]
      have hdiv : 0 < n / 2 := Nat.div_pos (by omega) (by omega)
      obtain ⟨h1, h3⟩ := ih (n / 2) hdiv (by omega)
      constructor
      · rw [pow_succ]
        omega
      · rw [pow_succ]
        omega

theorem round_half_even_ge (x b k : Nat) (hb : 0 < b) (h : k * b ≤ x) :
    k ≤ round_half_even x b := by
  have hq : k ≤ x / b := (Nat.le_div_iff_mul_le hb).mpr h
  unfold round_half_even
  split_ifs <;> omega

theorem round_half_even_le (x b k : Nat) (hb : 0 < b) (h : x < k * b) :
    round_half_even x b ≤ k := by
  have hq : x / b < k := (Nat.div_lt_iff_lt_mul hb).mpr h
  unfold round_half_even
  split_ifs <;> omega

theorem round_half_even_above (x b : Nat) (hb : 0 < b) :
    12582913 ≤ round_half_even x b ↔ 25165825 * b < 2 * x := by
  have hdm := Nat.div_add_mod x b
  have hr := Nat.mod_lt x hb
  rcases Nat.lt_trichotomy (x / b) 12582912 with hlt | heq | hgt
  · have h1 : b * (x / b) ≤ b * 12582911 := Nat.mul_le_mul_left b (by omega)
    have h2 : round_half_even x b ≤ 12582912 := by
      unfold round_half_even
      split_ifs <;> omega
    constructor
    · intro h
      omega
    · intro h
      omega
  · have hx : b * 12582912 + x % b = x := by
      have h := hdm
      rw [heq] at h
      exact h
    have hpar : x / b % 2 = 0 := by rw [heq]
    have hq : ¬ 12582913 ≤ x / b := by
      rw [heq]
      norm_num
    have hq1 : 12582913 ≤ x / b + 1 := by
      rw [heq]
    unfold round_half_even
    rw [if_pos hpar]
    by_cases c1 : 2 * (x % b) < b
    · rw [if_pos c1]
      constructor
      · intro h
        exact absurd h hq
      · intro h
        exfalso
        linarith
    · rw [if_neg c1]
      by_cases c2 : b < 2 * (x % b)
      · rw [if_pos c2]
        constructor
        · intro _
          linarith
        · intro _
          exact hq1
      · rw [if_neg c2]
        constructor
        · intro h
          exact absurd h hq
        · intro h
          exfalso
          linarith
  · have h1 : b * 12582913 ≤ b * (x / b) := Nat.mul_le_mul_left b (by omega)
    have h2 : x / b ≤ round_half_even x b := by
      unfold round_half_even
      split_ifs <;> omega
    constructor
    · intro _
      omega
    · intro _
      omega

theorem quotient_exponent_bounds (a b : Nat) (ha : 0 < a) (hb : 0 < b) :
    2 ^ quotient_exponent a b * b ≤ 2 * a * 2 ^ floor_log2 b b ∧
      a * 2 ^ floor_log2 b b < 2 ^ quotient_exponent a b * b := by
  obtain ⟨hP1, hP2⟩ := floor_log2_spec a a ha (le_refl a)
  obtain ⟨hQ1, hQ2⟩ := floor_log2_spec b b hb (le_refl b)
  rw [pow_succ] at hP2 hQ2
  unfold quotient_exponent
  by_cases c : b * 2 ^ floor_log2 a a ≤ a * 2 ^ floor_log2 b b
  · rw [if_pos c, pow_succ]
    generalize 2 ^ floor_log2 a a = P at *
    generalize 2 ^ floor_log2 b b = Q at *
    have h1 : a * Q < P * 2 * Q := Nat.mul_lt_mul_of_pos_right hP2 (by omega)
    have h2 : P * 2 * Q ≤ P * 2 * b := Nat.mul_le_mul_left _ hQ1
    constructor
    · linarith
    · linarith
  · rw [if_neg c]
    generalize 2 ^ floor_log2 a a = P at *
    generalize 2 ^ floor_log2 b b = Q at *
    have h1 : P * b ≤ P * (Q * 2) := Nat.mul_le_mul_left _ (by omega)
    have h2 : P * (Q * 2) ≤ a * (Q * 2) := Nat.mul_le_mul_right _ hP1
    constructor
    · linarith
    · linarith

theorem float_div_gt_iff (a b : Nat) (ha : 0 < a) (hb : 0 < b) :
    3 * (float_div_parts a b).2 < 4 * (float_div_parts a b).1 ↔
      25165825 * b < 33554432 * a := by
  obtain ⟨K1, K2⟩ := quotient_exponent_bounds a b ha hb
  have hQpos : 0 < 2 ^ floor_log2 b b := Nat.two_pow_pos _
  unfold float_div_parts
  rw [if_neg (by omega)]
  generalize quotient_exponent a b = t at *
  generalize floor_log2 b b = lb at *
  by_cases hcase : lb + 24 ≤ t
  · rw [if_pos hcase]
    have hT : 2 ^ t = 2 ^ (t - lb - 24) * 2 ^ lb * 16777216 := by
      rw [← pow_add, show (16777216 : ℕ) = 2 ^ 24 by norm_num, ← pow_add]
      congr 1
      omega
    have hUpos : 0 < 2 ^ (t - lb - 24) := Nat.two_pow_pos _
    rw [hT] at K1
    generalize 2 ^ (t - lb - 24) = U at *
    generalize 2 ^ lb = Q at *
    have h1 : (8388608 * (b * U)) * Q ≤ a * Q := by linarith
    have h2 : 8388608 * (b * U) ≤ a := Nat.le_of_mul_le_mul_right h1 hQpos
    have hm : 8388608 ≤ round_half_even a (b * U) :=
      round_half_even_ge a (b * U) 8388608 (Nat.mul_pos hb hUpos) h2
    have hbU : b ≤ b * U := Nat.le_mul_of_pos_right b hUpos
    have hmU : round_half_even a (b * U) ≤ round_half_even a (b * U) * U :=
      Nat.le_mul_of_pos_right _ hUpos
    simp only
    constructor
    · intro _
      linarith
    · intro _
      linarith
  · rw [if_neg hcase]
    have hT : 2 ^ (lb + 24 - t) * 2 ^ t = 2 ^ lb * 16777216 := by
      rw [← pow_add, show (16777216 : ℕ) = 2 ^ 24 by norm_num, ← pow_add]
      congr 1
      omega
    have hdown : lb + 24 - t ≤ 23 ∨ lb + 24 - t = 24 ∨ 25 ≤ lb + 24 - t := by omega
    have hD23 : lb + 24 - t ≤ 23 → 2 ^ (lb + 24 - t) ≤ 8388608 := by
      intro h
      calc 2 ^ (lb + 24 - t) ≤ 2 ^ 23 := Nat.pow_le_pow_right (by norm_num) h
        _ = 8388608 := by norm_num
    have hD24 : lb + 24 - t = 24 → 2 ^ (lb + 24 - t) = 16777216 := by
      intro h
      rw [h]
      norm_num
    have hD25 : 25 ≤ lb + 24 - t → 33554432 ≤ 2 ^ (lb + 24 - t) := by
      intro h
      calc 33554432 = 2 ^ 25 := by norm_num
        _ ≤ 2 ^ (lb + 24 - t) := Nat.pow_le_pow_right (by norm_num) h
    have hDpos : 0 < 2 ^ (lb + 24 - t) := Nat.two_pow_pos _
    generalize lb + 24 - t = down at *
    generalize 2 ^ down = D at *
    generalize 2 ^ t = T at *
    generalize 2 ^ lb = Q at *
    have e1 : D * (T * b) = 16777216 * (Q * b) := by
      rw [← mul_assoc, hT]
      ring
    have h1 : D * (T * b) ≤ D * (2 * a * Q) := Nat.mul_le_mul_left D K1
    have h2 : D * (a * Q) < D * (T * b) := Nat.mul_lt_mul_of_pos_left K2 hDpos
    have h3 : (8388608 * b) * Q ≤ (a * D) * Q := by linarith
    have h4 : (a * D) * Q < (16777216 * b) * Q := by linarith
    have hlo : 8388608 * b ≤ a * D := Nat.le_of_mul_le_mul_right h3 hQpos
    have hhi : a * D < 16777216 * b := Nat.lt_of_mul_lt_mul_right h4
    have hm1 : 8388608 ≤ round_half_even (a * D) b :=
      round_half_even_ge (a * D) b 8388608 hb hlo
    have hm2 : round_half_even (a * D) b ≤ 16777216 :=
      round_half_even_le (a * D) b 16777216 hb hhi
    simp only
    rcases hdown with hd | hd | hd
    · have hD := hD23 hd
      have haD : a * D ≤ a * 8388608 := Nat.mul_le_mul_left a hD
      constructor
      · intro _
        linarith
      · intro _
        linarith
    · have hD := hD24 hd
      rw [hD] at hm1 hm2 hlo hhi ⊢
      have hR := round_half_even_above (a * 16777216) b hb
      constructor
      · intro h
        have h5 : 12582913 ≤ round_half_even (a * 16777216) b := by linarith
        have := hR.mp h5
        linarith
      · intro h
        have h5 : 25165825 * b < 2 * (a * 16777216) := by linarith
        have := hR.mpr h5
        linarith
    · have hD := hD25 hd
      have haD : a * 33554432 ≤ a * D := Nat.mul_le_mul_left a hD
      constructor
      · intro _
        linarith
      · intro _
        linarith

theorem load_factor_gt_parts (t : HASH_TABLE) :
    get_load_factor_alpha t > MAX_LOAD_FACTOR ↔
      3 * (float_div_parts (float_of_int t.N) (float_of_int t.M)).2 <
        4 * (float_div_parts (float_of_int t.N) (float_of_int t.M)).1 := by
  unfold get_load_factor_alpha float_div MAX_LOAD_FACTOR
  have hpos : 0 < (float_div_parts (float_of_int t.N) (float_of_int t.M)).2 := by
    unfold float_div_parts
    split_ifs
    · exact Nat.one_pos
    · exact Nat.one_pos
    · exact Nat.two_pow_pos _
  generalize float_div_parts (float_of_int t.N) (float_of_int t.M) = p at *
  have hq : (0 : ℚ) < (p.2 : ℚ) := by exact_mod_cast hpos
  rw [gt_iff_lt, lt_div_iff₀ hq]
  constructor
  · intro h
    have h2 : ((3 * p.2 : ℕ) : ℚ) < ((4 * p.1 : ℕ) : ℚ) := by
      push_cast
      linarith
    exact_mod_cast h2
  · intro h
    have h2 : ((3 * p.2 : ℕ) : ℚ) < ((4 * p.1 : ℕ) : ℚ) := by exact_mod_cast h
    push_cast at h2
    linarith

/-- While `N` and `M` are below `2^24` both conversions to `float` are exact, and
the rounded quotient exceeds `0.75` exactly when the true quotient exceeds
`0.75 + 2^-25`, the midpoint between `0.75` and the next `float`. -/
theorem load_factor_gt_exact (t : HASH_TABLE) (hM : 0 < t.M) (hM2 : t.M < 16777216)
    (hN : t.N < 16777216) :
    get_load_factor_alpha t > MAX_LOAD_FACTOR ↔ 25165825 * t.M < 33554432 * t.N := by
  rw [load_factor_gt_parts]
  have eN : float_of_int t.N = t.N := by
    unfold float_of_int
    rw [if_pos hN]
  have eM : float_of_int t.M = t.M := by
    unfold float_of_int
    rw [if_pos hM2]
  rw [eN, eM]
  rcases Nat.eq_zero_or_pos t.N with h0 | hpos
  · rw [h0]
    have : float_div_parts 0 t.M = (0, 1) := by
      unfold float_div_parts
      rw [if_pos (Or.inl rfl)]
    rw [this]
    constructor
    · intro h
      simp at h
    · intro h
      omega
  · exact float_div_gt_iff t.N t.M hpos hM

/-- Up to capacity `2^23` the single-precision test agrees with the exact one. -/
theorem load_factor_gt_iff (t : HASH_TABLE) (hM : 0 < t.M) (hM2 : t.M ≤ 8388608)
    (hN : t.N < 16777216) :
    get_load_factor_alpha t > MAX_LOAD_FACTOR ↔ 3 * t.M < 4 * t.N := by
  rw [load_factor_gt_exact t hM (by omega) hN]
  constructor
  · intro h
    omega
  · intro h
    omega

/-! ## `hash_table_insert` -/

/-- The table that `hash_table_insert` prepends to: the resized one when the
load factor exceeds the threshold, the given one otherwise. -/
theorem insert_stage (t t1 : HASH_TABLE) (key : Key) (data : Data)
    (h : hash_table_insert t key data = some t1) :
    ∃ t0 array1,
      (if get_load_factor_alpha t > MAX_LOAD_FACTOR then hash_table_resize t
       else some t) = some t0 ∧
      push_front t0.array (_hash_string_efficient key t0.M) (new_node key data) = some array1 ∧
      t1 = { t0 with array := array1, N := t0.N + 1 } := by
  unfold hash_table_insert at h
  cases hst : (if get_load_factor_alpha t > MAX_LOAD_FACTOR then hash_table_resize t
      else some t) with
  | none => simp [hst] at h
  | some t0 =>
    simp only [hst] at h
    cases hp : push_front t0.array (_hash_string_efficient key t0.M) (new_node key data) with
    | none => simp [hp] at h
    | some array1 =>
      simp only [hp, Option.some.injEq] at h
      exact ⟨t0, array1, rfl, hp, h.symm⟩

theorem insert_spec (t t1 : HASH_TABLE) (key : Key) (data : Data) (hwf : WF t)
    (h : hash_table_insert t key data = some t1) :
    WF t1 ∧ t1.N = t.N + 1 ∧
      t1.M = (if get_load_factor_alpha t > MAX_LOAD_FACTOR then 2 * t.M else t.M) ∧
      t1.free_data = t.free_data ∧ t1.calls = t.calls ∧
      (∀ k, with_key k (all_entries t1) =
        (if key = k then [new_node key data] else []) ++
          (if get_load_factor_alpha t > MAX_LOAD_FACTOR then (with_key k (all_entries t)).reverse
           else with_key k (all_entries t))) ∧
      (all_entries t1).Perm (new_node key data :: all_entries t) ∧
      0 ≤ _hash_string_efficient key t1.M ∧
      slot_chain t1 key = new_node key data ::
        bucket (if get_load_factor_alpha t > MAX_LOAD_FACTOR then
            (rehash_slots (2 * t.M) t.array (List.replicate (2 * t.M) [])).getD []
          else t.array) (_hash_string_efficient key t1.M).toNat := by
  obtain ⟨t0, array1, hst, hp, rfl⟩ := insert_stage t t1 key data h
  -- facts about the stage table
  have hstage : WF t0 ∧ t0.N = t.N ∧
      t0.M = (if get_load_factor_alpha t > MAX_LOAD_FACTOR then 2 * t.M else t.M) ∧
      t0.free_data = t.free_data ∧ t0.calls = t.calls ∧
      (∀ k, with_key k (all_entries t0) =
          (if get_load_factor_alpha t > MAX_LOAD_FACTOR then (with_key k (all_entries t)).reverse
           else with_key k (all_entries t))) ∧
      (all_entries t0).Perm (all_entries t) ∧
      t0.array = (if get_load_factor_alpha t > MAX_LOAD_FACTOR then
            (rehash_slots (2 * t.M) t.array (List.replicate (2 * t.M) [])).getD []
          else t.array) := by
    by_cases hc : get_load_factor_alpha t > MAX_LOAD_FACTOR
    · simp only [if_pos hc] at hst ⊢
      obtain ⟨r1, r2, r3, r4, r5, r6, r7, _⟩ := resize_spec t t0 hwf hst
      refine ⟨r1, r3, r2, r4, r5, r6, r7, ?_⟩
      unfold hash_table_resize at hst
      cases hr : rehash_slots (2 * t.M) t.array (List.replicate (2 * t.M) []) with
      | none => simp [hr] at hst
      | some a =>
        simp only [hr, Option.some.injEq] at hst
        subst hst
        rfl
    · simp only [if_neg hc, Option.some.injEq] at hst ⊢
      subst hst
      exact ⟨hwf, rfl, rfl, rfl, rfl, fun _ => rfl, List.Perm.refl _, rfl⟩
  obtain ⟨hwf0, hN, hM, hfd, hcalls, hkeys, hperm, harr⟩ := hstage
  obtain ⟨h0, hlt, harr1⟩ := push_front_some _ _ _ _ hp
  have hidx : _hash_string_efficient (new_node key data).key t0.M =
      (((_hash_string_efficient key t0.M).toNat : Nat) : Int) :=
    (Int.toNat_of_nonneg h0).symm
  subst harr1
  refine ⟨⟨?_, hwf0.2.1, ?_⟩, ?_, hM, hfd, hcalls, ?_, ?_, h0, ?_⟩
  · simpa [List.length_set] using hwf0.1
  · exact slotInv_set_cons t0.M t0.array _ _ hlt hwf0.2.2 hidx
  · simp [hN]
  · intro k
    have := with_key_set_cons t0.M t0.array (new_node key data) _ hlt hwf0.2.2 hidx k
    simp only [all_entries] at hkeys ⊢
    rw [this, hkeys k]
    by_cases hk : key = k <;> simp [hk, new_node]
  · simp only [all_entries]
    exact (flatten_set_cons_perm t0.array _ _ hlt).trans (List.Perm.cons _ hperm)
  · simp only [slot_chain]
    rw [bucket_set_self _ _ _ hlt, harr]

theorem index_valid (t : HASH_TABLE) (hwf : WF t) (key : Key)
    (h0 : 0 ≤ _hash_string_efficient key t.M) :
    0 ≤ _hash_string_efficient key t.M ∧
      _hash_string_efficient key t.M < (t.array.length : Int) := by
  refine ⟨h0, ?_⟩
  rw [hwf.1]
  exact hash_lt key t.M hwf.2.1

theorem get_eq (t : HASH_TABLE) (hwf : WF t) (key : Key)
    (h0 : 0 ≤ _hash_string_efficient key t.M) :
    hash_table_get t key = some (chain_get key (slot_chain t key)) := by
  unfold hash_table_get
  simp only [if_pos (index_valid t hwf key h0)]
  rfl

theorem with_key_all (t : HASH_TABLE) (hwf : WF t) (key : Key) :
    with_key key (all_entries t) = with_key key (slot_chain t key) :=
  with_key_flatten t.M t.array hwf.2.2 key

theorem get_spec (t : HASH_TABLE) (hwf : WF t) (key : Key)
    (h0 : 0 ≤ _hash_string_efficient key t.M) :
    hash_table_get t key = some (first_data (with_key key (all_entries t))) := by
  rw [get_eq t hwf key h0, chain_get_eq, with_key_all t hwf]

theorem hash_nonneg_of_mem (t : HASH_TABLE) (hwf : WF t) (e : NODE) (he : e ∈ all_entries t) :
    0 ≤ _hash_string_efficient e.key t.M := by
  obtain ⟨i, _, hi⟩ := mem_flatten_bucket t.array e he
  rw [hwf.2.2 i e hi]
  exact Int.ofNat_nonneg i

theorem hash_nonneg_of_with_key (t : HASH_TABLE) (hwf : WF t) (key : Key)
    (h : with_key key (all_entries t) ≠ []) : 0 ≤ _hash_string_efficient key t.M := by
  obtain ⟨e, he⟩ := List.exists_mem_of_ne_nil _ h
  obtain ⟨hmem, hk⟩ := (mem_with_key key _ e).mp he
  rw [← hk]
  exact hash_nonneg_of_mem t hwf e hmem

theorem remove_some_index (t : HASH_TABLE) (key : Key) (r : Int) (t1 : HASH_TABLE)
    (h : hash_table_remove t key = some (r, t1)) :
    0 ≤ _hash_string_efficient key t.M := by
  unfold hash_table_remove at h
  simp only at h
  split at h
  · rename_i hc
    exact hc.1
  · cases h

theorem remove_cases (t : HASH_TABLE) (hwf : WF t) (key : Key)
    (h0 : 0 ≤ _hash_string_efficient key t.M) :
    (with_key key (slot_chain t key) = [] ∧ hash_table_remove t key = some (FALSE, t)) ∨
    (∃ pre e post, slot_chain t key = pre ++ e :: post ∧ e.key = key ∧
      (∀ x ∈ pre, x.key ≠ key) ∧
      hash_table_remove t key = some (TRUE, { t with
        array := t.array.set (_hash_string_efficient key t.M).toNat (pre ++ post),
        calls := free_node e t.free_data ++ t.calls })) := by
  unfold hash_table_remove
  simp only [if_pos (index_valid t hwf key h0)]
  cases hu : chain_unlink key (t.array.getD (_hash_string_efficient key t.M).toNat []) with
  | none =>
    left
    exact ⟨(chain_unlink_none key _).mp hu, rfl⟩
  | some r =>
    obtain ⟨e, chain1⟩ := r
    right
    obtain ⟨pre, post, hl, hl1, he, hpre⟩ := chain_unlink_some key _ e chain1 hu
    exact ⟨pre, e, post, hl, he, hpre, by simp [hl1]⟩

theorem slotInv_set_sub (M : Nat) (array : List (List NODE)) (i : Nat) (c : List NODE)
    (hinv : SlotInv M array) (hc : ∀ x ∈ c, x ∈ bucket array i) :
    SlotInv M (array.set i c) := by
  intro j x hx
  by_cases hj : i = j
  · subst hj
    by_cases hi : i < array.length
    · rw [bucket_set_self _ _ _ hi] at hx
      exact hinv i x (hc x hx)
    · rw [bucket_of_length_le _ _ (by simp [List.length_set]; omega)] at hx
      cases hx
  · rw [bucket_set_ne _ _ _ _ hj] at hx
    exact hinv j x hx

theorem remove_spec (t t1 : HASH_TABLE) (hwf : WF t) (key : Key) (r : Int)
    (h : hash_table_remove t key = some (r, t1)) :
    WF t1 ∧ t1.N = t.N ∧ t1.M = t.M ∧ t1.free_data = t.free_data ∧
      (r = TRUE ∨ r = FALSE) ∧
      (r = TRUE ↔ with_key key (all_entries t) ≠ []) ∧
      (r = FALSE → t1 = t) ∧
      (∀ k, with_key k (all_entries t1) =
        if k = key then (with_key k (all_entries t)).tail else with_key k (all_entries t)) := by
  have h0 := remove_some_index t key r t1 h
  have hlt := (Int.toNat_lt h0).mpr (index_valid t hwf key h0).2
  rcases remove_cases t hwf key h0 with ⟨hnil, hr⟩ | ⟨pre, e, post, hsl, he, hpre, hr⟩
  · rw [hr] at h
    simp only [Option.some.injEq, Prod.mk.injEq] at h
    obtain ⟨rfl, rfl⟩ := h
    refine ⟨hwf, rfl, rfl, rfl, Or.inr rfl, ?_, fun _ => rfl, ?_⟩
    · rw [with_key_all t hwf, hnil]
      simp [TRUE, FALSE]
    · intro k
      by_cases hk : k = key
      · subst hk
        rw [with_key_all t hwf, hnil]
        simp
      · simp [hk]
  · rw [hr] at h
    simp only [Option.some.injEq, Prod.mk.injEq] at h
    obtain ⟨rfl, rfl⟩ := h
    have hsub : ∀ x ∈ pre ++ post, x ∈ bucket t.array (_hash_string_efficient key t.M).toNat := by
      intro x hx
      have : x ∈ slot_chain t key := by
        rw [hsl]
        rcases List.mem_append.mp hx with hx | hx
        · exact List.mem_append_left _ hx
        · exact List.mem_append_right _ (List.mem_cons_of_mem _ hx)
      exact this
    have hinv1 := slotInv_set_sub t.M t.array _ (pre ++ post) hwf.2.2 hsub
    have hwf1 : WF { t with
        array := t.array.set (_hash_string_efficient key t.M).toNat (pre ++ post),
        calls := free_node e t.free_data ++ t.calls } :=
      ⟨by simpa [List.length_set] using hwf.1, hwf.2.1, hinv1⟩
    refine ⟨hwf1, rfl, rfl, rfl, Or.inl rfl, ?_, ?_, ?_⟩
    · rw [with_key_all t hwf, hsl, (with_key_of_split key pre post e he hpre).1]
      simp
    · intro hf
      simp [TRUE, FALSE] at hf
    · intro k
      rw [with_key_all _ hwf1, with_key_all t hwf]
      simp only [slot_chain]
      by_cases hk : k = key
      · subst hk
        rw [if_pos rfl, bucket_set_self _ _ _ hlt]
        have hs := hsl
        simp only [slot_chain] at hs
        rw [hs, (with_key_of_split k pre post e he hpre).1,
          (with_key_of_split k pre post e he hpre).2]
        rfl
      · rw [if_neg hk]
        by_cases hidx : (_hash_string_efficient key t.M).toNat =
            (_hash_string_efficient k t.M).toNat
        · rw [← hidx, bucket_set_self _ _ _ hlt]
          have hs := hsl
          simp only [slot_chain] at hs
          rw [hs, with_key_other_of_split key k pre post e he hk]
        · rw [bucket_set_ne _ _ _ _ hidx]

/-! ## Reachable tables are well formed -/

theorem create_wf (M : Nat) (fd : Bool) (hM : 0 < M) : WF (hash_table_create M fd) :=
  ⟨List.length_replicate _ _, hM, slotInv_replicate _ _⟩

theorem create_with_key (M : Nat) (fd : Bool) (key : Key) :
    with_key key (all_entries (hash_table_create M fd)) = [] := by
  simp [all_entries, hash_table_create, flatten_replicate_nil, with_key]

theorem step_remove_some (t t1 : HASH_TABLE) (key : Key)
    (h : step t (Op.remove key) = some t1) :
    ∃ r, hash_table_remove t key = some (r, t1) := by
  simp only [step] at h
  cases hr : hash_table_remove t key with
  | none => simp [hr] at h
  | some p =>
    obtain ⟨r, t2⟩ := p
    simp only [hr, Option.map_some', Option.some.injEq] at h
    subst h
    exact ⟨r, rfl⟩

theorem step_wf (t t1 : HASH_TABLE) (op : Op) (hwf : WF t) (h : step t op = some t1) :
    WF t1 := by
  cases op with
  | insert key data => exact (insert_spec t t1 key data hwf h).1
  | remove key =>
    obtain ⟨r, hr⟩ := step_remove_some t t1 key h
    exact (remove_spec t t1 hwf key r hr).1

theorem run_cons (t : HASH_TABLE) (op : Op) (ops : List Op) (t2 : HASH_TABLE)
    (h : run t (op :: ops) = some t2) :
    ∃ t1, step t op = some t1 ∧ run t1 ops = some t2 := by
  rw [run] at h
  cases hs : step t op with
  | none => simp [hs] at h
  | some t1 =>
    simp only [hs] at h
    exact ⟨t1, rfl, h⟩

theorem run_cons_eq (t t1 : HASH_TABLE) (op : Op) (ops : List Op)
    (h : step t op = some t1) : run t (op :: ops) = run t1 ops := by
  rw [run, h]

theorem run_wf (t t1 : HASH_TABLE) (ops : List Op) (hwf : WF t) (h : run t ops = some t1) :
    WF t1 := by
  induction ops generalizing t with
  | nil =>
    simp only [run, Option.some.injEq] at h
    exact h ▸ hwf
  | cons op ops ih =>
    obtain ⟨t0, hs, hr⟩ := run_cons t op ops t1 h
    exact ih t0 (step_wf t t0 op hwf hs) hr

theorem reachable_wf (t : HASH_TABLE) (h : Reachable t) : WF t := by
  obtain ⟨M, fd, ops, hM, hr⟩ := h
  exact run_wf _ t ops (create_wf M fd hM) hr

/-! ## Round trip -/

theorem run_with_key_perm (t0 t : HASH_TABLE) (ops : List Op) (k : Key) (hwf : WF t0)
    (hrun : run t0 ops = some t) (hrem : Op.remove k ∉ ops) :
    (with_key k (all_entries t)).Perm
      ((inserts_of k ops).map (new_node k) ++ with_key k (all_entries t0)) := by
  induction ops generalizing t0 with
  | nil =>
    simp only [run, Option.some.injEq] at hrun
    subst hrun
    simp [inserts_of]
  | cons op ops ih =>
    obtain ⟨t1, hs, hr⟩ := run_cons t0 op ops t hrun
    have hwf1 := step_wf t0 t1 op hwf hs
    have hrem1 : Op.remove k ∉ ops := fun hh => hrem (List.mem_cons_of_mem _ hh)
    have h1 := ih t1 hwf1 hr hrem1
    cases op with
    | insert key data =>
      obtain ⟨_, _, _, _, _, hk, _⟩ := insert_spec t0 t1 key data hwf hs
      have hstage : (if get_load_factor_alpha t0 > MAX_LOAD_FACTOR then
            (with_key k (all_entries t0)).reverse
          else with_key k (all_entries t0)).Perm (with_key k (all_entries t0)) := by
        split
        · exact List.reverse_perm _
        · exact List.Perm.refl _
      rw [hk k] at h1
      by_cases hkey : key = k
      · subst hkey
        simp only [inserts_of, if_true, List.map_cons] at h1 ⊢
        refine h1.trans ?_
        refine (List.Perm.append_left _ (List.Perm.cons _ hstage)).trans ?_
        exact List.perm_middle
      · simp only [inserts_of, if_neg hkey, List.nil_append] at h1 ⊢
        exact h1.trans (List.Perm.append_left _ hstage)
    | remove key =>
      obtain ⟨r, hrm⟩ := step_remove_some t0 t1 key hs
      have hkey : k ≠ key := by
        intro hh
        apply hrem
        rw [hh]
        exact List.mem_cons_self _ _
      have hk := (remove_spec t0 t1 hwf key r hrm).2.2.2.2.2.2.2 k
      rw [if_neg hkey] at hk
      rw [hk] at h1
      simpa [inserts_of] using h1

/-- C1 (round trip).  After `hash_table_create` with `M > 0` and any sequence of
`hash_table_insert` / `hash_table_remove` calls (resizes included) in which key
`k` is inserted exactly once, with data `d`, and never removed,
`hash_table_get(table, k)` returns `d`. -/
theorem C1_round_trip (M : Nat) (fd : Bool) (ops : List Op) (t : HASH_TABLE) (k : Key)
    (d : Data) (hM : 0 < M) (hrun : run (hash_table_create M fd) ops = some t)
    (hins : inserts_of k ops = [d]) (hrem : Op.remove k ∉ ops) :
    hash_table_get t k = some d := by
  have hwf0 := create_wf M fd hM
  have hwf := run_wf _ t ops hwf0 hrun
  have hp := run_with_key_perm _ t ops k hwf0 hrun hrem
  rw [hins, create_with_key] at hp
  have heq : with_key k (all_entries t) = [new_node k d] := by
    simpa using hp
  have h0 : 0 ≤ _hash_string_efficient k t.M :=
    hash_nonneg_of_with_key t hwf k (by simp [heq])
  rw [get_spec t hwf k h0, heq]
  rfl

/-- C1 at capacity 1: "a" is inserted with data 7, then "b", "c", "b" (each of
the first two of them resizes), "b" is removed once; "a" is still found. -/
theorem C1_round_trip_witness :
    0 < 1 ∧
    run (hash_table_create 1 false)
        [Op.insert [97] 7, Op.insert [98] 8, Op.insert [99] 9, Op.insert [98] 10,
          Op.remove [98]] =
      some { array := [[], [⟨[97], 7⟩], [⟨[98], 8⟩], [⟨[99], 9⟩]],
             N := 4, M := 4, free_data := false, calls := [] } ∧
    hash_table_get
      { array := [[], [⟨[97], 7⟩], [⟨[98], 8⟩], [⟨[99], 9⟩]],
        N := 4, M := 4, free_data := false, calls := [] } [97] = some 7 :=
  ⟨by decide, by decide,
    C1_round_trip 1 false
      [Op.insert [97] 7, Op.insert [98] 8, Op.insert [99] 9, Op.insert [98] 10, Op.remove [98]]
      _ [97] 7 (by decide) (by decide) (by decide) (by decide)⟩

/-! ## Lookup -/

theorem exists_key_iff (t : HASH_TABLE) (k : Key) :
    (∃ e ∈ all_entries t, e.key = k) ↔ with_key k (all_entries t) ≠ [] := by
  rw [Ne, with_key_eq_nil]
  push_neg
  rfl

/-- C3 (counterexample run).  After `hash_table_insert(table, "a", NULL)` on a
fresh table of capacity 4 the node with key "a" is in the table, found by
`hash_table_get`'s scan, and `hash_table_contains(table, "a")` returns `FALSE`. -/
theorem C3_contains_null_data :
    run (hash_table_create 4 false) [Op.insert [97] NULL] =
      some { array := [[], [⟨[97], NULL⟩], [], []],
             N := 1, M := 4, free_data := false, calls := [] } ∧
    (∃ e ∈ all_entries { array := [[], [⟨[97], NULL⟩], [], []],
                         N := 1, M := 4, free_data := false, calls := [] }, e.key = [97]) ∧
    hash_table_contains { array := [[], [⟨[97], NULL⟩], [], []],
                          N := 1, M := 4, free_data := false, calls := [] } [97] =
      some FALSE := by
  refine ⟨by decide, ⟨⟨[97], NULL⟩, by decide, rfl⟩, by decide⟩

/-! ## Removal -/

/-- C5 (remove, frame).  In a reachable table holding a node with key `k`,
`hash_table_remove(table, k)` returns `TRUE` and takes out exactly the first node
with key `k` of `k`'s chain: the chain `pre ++ e :: post` becomes `pre ++ post`,
every other slot keeps its chain, and the array keeps its length and `M`. -/
theorem C5_remove_first (t : HASH_TABLE) (k : Key) (hr : Reachable t)
    (hex : ∃ e ∈ all_entries t, e.key = k) :
    ∃ t1 pre e post, hash_table_remove t k = some (TRUE, t1) ∧
      slot_chain t k = pre ++ e :: post ∧ e.key = k ∧ (∀ x ∈ pre, x.key ≠ k) ∧
      slot_chain t1 k = pre ++ post ∧
      (∀ j, j ≠ (_hash_string_efficient k t.M).toNat →
        bucket t1.array j = bucket t.array j) ∧
      t1.array.length = t.array.length ∧ t1.M = t.M := by
  have hwf := reachable_wf t hr
  have hne := (exists_key_iff t k).mp hex
  have h0 := hash_nonneg_of_with_key t hwf k hne
  have hlt := (Int.toNat_lt h0).mpr (index_valid t hwf k h0).2
  rcases remove_cases t hwf k h0 with ⟨hnil, _⟩ | ⟨pre, e, post, hsl, he, hpre, hrm⟩
  · rw [with_key_all t hwf] at hne
    exact absurd hnil hne
  · refine ⟨_, pre, e, post, hrm, hsl, he, hpre, ?_, ?_, ?_, rfl⟩
    · simp only [slot_chain]
      exact bucket_set_self _ _ _ hlt
    · intro j hj
      exact bucket_set_ne _ _ _ _ (Ne.symm hj)
    · simp [List.length_set]

/-- C5 on slot 1 = ["e", "a"(7), "a"(5)]: removing "a" unlinks the node with
data 7 and leaves ["e", "a"(5)]. -/
theorem C5_remove_first_witness :
    Reachable { array := [[], [⟨[101], 0⟩, ⟨[97], 7⟩, ⟨[97], 5⟩], [], [⟨[99], 6⟩]],
                N := 4, M := 4, free_data := false, calls := [] } ∧
    (∃ e ∈ all_entries { array := [[], [⟨[101], 0⟩, ⟨[97], 7⟩, ⟨[97], 5⟩], [], [⟨[99], 6⟩]],
                         N := 4, M := 4, free_data := false, calls := [] }, e.key = [97]) ∧
    hash_table_remove { array := [[], [⟨[101], 0⟩, ⟨[97], 7⟩, ⟨[97], 5⟩], [], [⟨[99], 6⟩]],
                        N := 4, M := 4, free_data := false, calls := [] } [97] =
      some (TRUE, { array := [[], [⟨[101], 0⟩, ⟨[97], 5⟩], [], [⟨[99], 6⟩]],
                    N := 4, M := 4, free_data := false, calls := [] }) ∧
    ∃ t1 pre e post,
      hash_table_remove { array := [[], [⟨[101], 0⟩, ⟨[97], 7⟩, ⟨[97], 5⟩], [], [⟨[99], 6⟩]],
                          N := 4, M := 4, free_data := false, calls := [] } [97] =
        some (TRUE, t1) ∧
      slot_chain { array := [[], [⟨[101], 0⟩, ⟨[97], 7⟩, ⟨[97], 5⟩], [], [⟨[99], 6⟩]],
                   N := 4, M := 4, free_data := false, calls := [] } [97] = pre ++ e :: post ∧
      e.key = [97] ∧ (∀ x ∈ pre, x.key ≠ [97]) ∧ slot_chain t1 [97] = pre ++ post ∧
      (∀ j, j ≠ (_hash_string_efficient [97] (4 : Nat)).toNat →
        bucket t1.array j =
          bucket [[], [⟨[101], 0⟩, ⟨[97], 7⟩, ⟨[97], 5⟩], [], [⟨[99], 6⟩]] j) ∧
      t1.array.length = 4 ∧ t1.M = 4 :=
  have hreach : Reachable ⟨[[], [⟨[101], 0⟩, ⟨[97], 7⟩, ⟨[97], 5⟩], [], [⟨[99], 6⟩]],
      4, 4, false, []⟩ :=
    ⟨2, false, [Op.insert [97] 5, Op.insert [99] 6, Op.insert [97] 7, Op.insert [101] 0],
      by decide, by decide⟩
  ⟨hreach, ⟨⟨[97], 7⟩, by decide, rfl⟩, by decide,
    C5_remove_first _ [97] hreach ⟨⟨[97], 7⟩, by decide, rfl⟩⟩

/-! ## Duplicate keys -/

/-- C6 (counterexample).  From the reachable table holding "a" with data 9 at
capacity 1, insert ("a", 1), insert ("a", 2) — the second insert resizes — and
remove "a" once: `hash_table_get` then returns 9, not the previous value 1. -/
theorem C6_counterexample :
    Reachable { array := [[⟨[97], 9⟩]], N := 1, M := 1, free_data := false, calls := [] } ∧
    hash_table_insert
        { array := [[⟨[97], 9⟩]], N := 1, M := 1, free_data := false, calls := [] } [97] 1 =
      some { array := [[], [⟨[97], 1⟩, ⟨[97], 9⟩]],
             N := 2, M := 2, free_data := false, calls := [] } ∧
    hash_table_insert
        { array := [[], [⟨[97], 1⟩, ⟨[97], 9⟩]],
          N := 2, M := 2, free_data := false, calls := [] } [97] 2 =
      some { array := [[], [⟨[97], 2⟩, ⟨[97], 9⟩, ⟨[97], 1⟩], [], []],
             N := 3, M := 4, free_data := false, calls := [] } ∧
    hash_table_remove
        { array := [[], [⟨[97], 2⟩, ⟨[97], 9⟩, ⟨[97], 1⟩], [], []],
          N := 3, M := 4, free_data := false, calls := [] } [97] =
      some (TRUE, { array := [[], [⟨[97], 9⟩, ⟨[97], 1⟩], [], []],
                    N := 3, M := 4, free_data := false, calls := [] }) ∧
    hash_table_get
        { array := [[], [⟨[97], 9⟩, ⟨[97], 1⟩], [], []],
          N := 3, M := 4, free_data := false, calls := [] } [97] = some 9 ∧
    hash_table_get
        { array := [[], [⟨[97], 9⟩, ⟨[97], 1⟩], [], []],
          N := 3, M := 4, free_data := false, calls := [] } [97] ≠ some 1 :=
  ⟨⟨1, false, [Op.insert [97] 9], by decide, by decide⟩,
    by decide, by decide, by decide, by decide, by decide⟩

/-- C6 (duplicate semantics, amended).  In a reachable table, after
`hash_table_insert(table, k, d1)` and `hash_table_insert(table, k, d2)`,
`hash_table_get(table, k)` returns `d2`; one `hash_table_remove(table, k)` then
returns `TRUE`, and `hash_table_get(table, k)` afterwards returns `d1` provided
the table held no node with key `k` before the two inserts or the second insert
did not resize. -/
theorem C6_duplicate_semantics (t t1 t2 : HASH_TABLE) (k : Key) (d1 d2 : Data)
    (hr : Reachable t) (h1 : hash_table_insert t k d1 = some t1)
    (h2 : hash_table_insert t1 k d2 = some t2) :
    hash_table_get t2 k = some d2 ∧
    ∃ t3, hash_table_remove t2 k = some (TRUE, t3) ∧
      (((∀ e ∈ all_entries t, e.key ≠ k) ∨
          ¬ get_load_factor_alpha t1 > MAX_LOAD_FACTOR) →
        hash_table_get t3 k = some d1) := by
  have hwf := reachable_wf t hr
  obtain ⟨hwf1, _, _, _, _, hk1, _, _, _⟩ := insert_spec t t1 k d1 hwf h1
  obtain ⟨hwf2, _, _, _, _, hk2, _, h02, _⟩ := insert_spec t1 t2 k d2 hwf1 h2
  have hw1 := hk1 k
  have hw2 := hk2 k
  simp only [if_true, List.singleton_append] at hw1 hw2
  have hget2 : hash_table_get t2 k = some d2 := by
    rw [get_spec t2 hwf2 k h02, hw2]
    rfl
  refine ⟨hget2, ?_⟩
  have hdef : ∃ r t3, hash_table_remove t2 k = some (r, t3) := by
    rcases remove_cases t2 hwf2 k h02 with ⟨_, h⟩ | ⟨_, _, _, _, _, _, h⟩
    · exact ⟨_, _, h⟩
    · exact ⟨_, _, h⟩
  obtain ⟨r, t3, hrm⟩ := hdef
  obtain ⟨hwf3, _, hM3, _, _, htrue, _, hk3⟩ := remove_spec t2 t3 hwf2 k r hrm
  have hr : r = TRUE := htrue.mpr (by simp [hw2])
  subst hr
  refine ⟨t3, hrm, ?_⟩
  intro hcond
  have h03 : 0 ≤ _hash_string_efficient k t3.M := by
    rw [hM3]
    exact h02
  have hw3 := hk3 k
  rw [if_pos rfl, hw2, List.tail_cons] at hw3
  rw [get_spec t3 hwf3 k h03, hw3]
  rcases hcond with hnone | hnores
  · have hnil : with_key k (all_entries t) = [] := (with_key_eq_nil k _).mpr hnone
    rw [hnil] at hw1
    have hw1a : with_key k (all_entries t1) = [new_node k d1] := by
      rw [hw1]
      split <;> rfl
    rw [hw1a]
    split <;> rfl
  · rw [if_neg hnores, hw1]
    rfl

/-- C6 at the reachable table holding "b" at capacity 4: after the two inserts
for "a" and one remove, the previous value 1 is found. -/
theorem C6_duplicate_semantics_witness :
    Reachable { array := [[], [], [⟨[98], 3⟩], []],
                N := 1, M := 4, free_data := false, calls := [] } ∧
    hash_table_insert { array := [[], [], [⟨[98], 3⟩], []],
                        N := 1, M := 4, free_data := false, calls := [] } [97] 1 =
      some { array := [[], [⟨[97], 1⟩], [⟨[98], 3⟩], []],
             N := 2, M := 4, free_data := false, calls := [] } ∧
    hash_table_insert { array := [[], [⟨[97], 1⟩], [⟨[98], 3⟩], []],
                        N := 2, M := 4, free_data := false, calls := [] } [97] 2 =
      some { array := [[], [⟨[97], 2⟩, ⟨[97], 1⟩], [⟨[98], 3⟩], []],
             N := 3, M := 4, free_data := false, calls := [] } ∧
    hash_table_get { array := [[], [⟨[97], 2⟩, ⟨[97], 1⟩], [⟨[98], 3⟩], []],
                     N := 3, M := 4, free_data := false, calls := [] } [97] = some 2 ∧
    ∃ t3,
      hash_table_remove { array := [[], [⟨[97], 2⟩, ⟨[97], 1⟩], [⟨[98], 3⟩], []],
                          N := 3, M := 4, free_data := false, calls := [] } [97] =
        some (TRUE, t3) ∧
      (((∀ e ∈ all_entries { array := [[], [], [⟨[98], 3⟩], []],
                             N := 1, M := 4, free_data := false, calls := [] },
            e.key ≠ [97]) ∨
          ¬ get_load_factor_alpha { array := [[], [⟨[97], 1⟩], [⟨[98], 3⟩], []],
                                    N := 2, M := 4, free_data := false, calls := [] } >
              MAX_LOAD_FACTOR) →
        hash_table_get t3 [97] = some 1) :=
  have hreach : Reachable ⟨[[], [], [⟨[98], 3⟩], []], 1, 4, false, []⟩ :=
    ⟨4, false, [Op.insert [98] 3], by decide, by decide⟩
  have h1 : hash_table_insert ⟨[[], [], [⟨[98], 3⟩], []], 1, 4, false, []⟩ [97] 1 =
      some ⟨[[], [⟨[97], 1⟩], [⟨[98], 3⟩], []], 2, 4, false, []⟩ := by decide
  have h2 : hash_table_insert ⟨[[], [⟨[97], 1⟩], [⟨[98], 3⟩], []], 2, 4, false, []⟩ [97] 2 =
      some ⟨[[], [⟨[97], 2⟩, ⟨[97], 1⟩], [⟨[98], 3⟩], []], 3, 4, false, []⟩ := by decide
  ⟨hreach, h1, h2, C6_duplicate_semantics _ _ _ [97] 1 2 hreach h1 h2⟩

/-! ## Last inserted wins -/

theorem reverse_of_length_le_one (l : List NODE) (h : l.length ≤ 1) : l.reverse = l := by
  match l, h with
  | [], _ => rfl
  | [_], _ => rfl

theorem run_order_kept (t0 t : HASH_TABLE) (ops : List Op) (k : Key) (hwf : WF t0)
    (hrun : run t0 ops = some t) (hkeep : order_kept k t0 ops = true) :
    (with_key k (all_entries t)).map NODE.data =
      newest_first k ((with_key k (all_entries t0)).map NODE.data) ops := by
  induction ops generalizing t0 with
  | nil =>
    simp only [run, Option.some.injEq] at hrun
    subst hrun
    rfl
  | cons op ops ih =>
    obtain ⟨t1, hs, hr⟩ := run_cons t0 op ops t hrun
    have hwf1 := step_wf t0 t1 op hwf hs
    rw [order_kept, hs, Bool.and_eq_true] at hkeep
    obtain ⟨hflip, hkeep1⟩ := hkeep
    rw [ih t1 hwf1 hr hkeep1]
    cases op with
    | insert key data =>
      obtain ⟨_, _, _, _, _, hk, _⟩ := insert_spec t0 t1 key data hwf hs
      have hstage : (if get_load_factor_alpha t0 > MAX_LOAD_FACTOR then
            (with_key k (all_entries t0)).reverse
          else with_key k (all_entries t0)) = with_key k (all_entries t0) := by
        split
        · rename_i hc
          have hload : get_load_factor_alpha t0 > MAX_LOAD_FACTOR := hc
          simp only [resizes_on, hload, decide_True, Bool.not_true, Bool.false_or,
            decide_eq_true_eq] at hflip
          exact reverse_of_length_le_one _ hflip
        · rfl
      rw [hk k, hstage, newest_first]
      by_cases hkey : key = k
      · simp [hkey, new_node]
      · simp [hkey]
    | remove key =>
      obtain ⟨r, hrm⟩ := step_remove_some t0 t1 key hs
      have hk := (remove_spec t0 t1 hwf key r hrm).2.2.2.2.2.2.2 k
      rw [hk, newest_first]
      by_cases hkey : key = k
      · subst hkey
        simp [List.map_tail]
      · have hkey2 : ¬ k = key := fun hh => hkey hh.symm
        simp [hkey, hkey2]

/-- C7 (counterexample).  At capacity 1, insert ("a", 1), insert ("a", 2), insert
("b", 3): the third insert resizes while "a" has two nodes.  Afterwards the node
inserted first precedes the node inserted second in the chain of "a", and
`hash_table_get` returns 1 and not the most recently inserted data 2. -/
theorem C7_counterexample :
    run (hash_table_create 1 false)
        [Op.insert [97] 1, Op.insert [97] 2, Op.insert [98] 3] =
      some { array := [[], [⟨[97], 1⟩, ⟨[97], 2⟩], [⟨[98], 3⟩], []],
             N := 3, M := 4, free_data := false, calls := [] } ∧
    newest_first [97] [] [Op.insert [97] 1, Op.insert [97] 2, Op.insert [98] 3] = [2, 1] ∧
    hash_table_get { array := [[], [⟨[97], 1⟩, ⟨[97], 2⟩], [⟨[98], 3⟩], []],
                     N := 3, M := 4, free_data := false, calls := [] } [97] = some 1 ∧
    hash_table_get { array := [[], [⟨[97], 1⟩, ⟨[97], 2⟩], [⟨[98], 3⟩], []],
                     N := 3, M := 4, free_data := false, calls := [] } [97] ≠ some 2 := by
  refine ⟨by decide, by decide, by decide, by decide⟩

/-- C7 (last inserted wins, amended).  For a table reached from
`hash_table_create` (`M > 0`) by inserts and removes during which no resize took
place while key `k` had two or more nodes: the nodes with key `k` stand in `k`'s
chain most recently inserted first, and when `k` has nodes `hash_table_get`
returns the data of the most recently inserted one still in the table. -/
theorem C7_last_inserted_wins (M : Nat) (fd : Bool) (ops : List Op) (t : HASH_TABLE)
    (k : Key) (hM : 0 < M) (hrun : run (hash_table_create M fd) ops = some t)
    (hkeep : order_kept k (hash_table_create M fd) ops = true) :
    (with_key k (slot_chain t k)).map NODE.data = newest_first k [] ops ∧
    ((∃ e ∈ all_entries t, e.key = k) →
      hash_table_get t k = some ((newest_first k [] ops).headD NULL)) := by
  have hwf0 := create_wf M fd hM
  have hwf := run_wf _ t ops hwf0 hrun
  have h := run_order_kept _ t ops k hwf0 hrun hkeep
  rw [create_with_key] at h
  refine ⟨by rw [← with_key_all t hwf]; exact h, ?_⟩
  intro hex
  have hne := (exists_key_iff t k).mp hex
  have h0 := hash_nonneg_of_with_key t hwf k hne
  rw [get_spec t hwf k h0]
  simp only [List.map_nil] at h
  rw [← h]
  cases with_key k (all_entries t) with
  | nil => rfl
  | cons a l => rfl

/-- C7 at capacity 1: "a", "b", "a", "a" are inserted (the second and third
insert resize, "a" having one node each time), then "a" is removed once. -/
theorem C7_last_inserted_wins_witness :
    0 < 1 ∧
    run (hash_table_create 1 false)
        [Op.insert [97] 1, Op.insert [98] 2, Op.insert [97] 3, Op.insert [97] 4,
          Op.remove [97]] =
      some { array := [[], [⟨[97], 3⟩, ⟨[97], 1⟩], [⟨[98], 2⟩], []],
             N := 4, M := 4, free_data := false, calls := [] } ∧
    order_kept [97] (hash_table_create 1 false)
        [Op.insert [97] 1, Op.insert [98] 2, Op.insert [97] 3, Op.insert [97] 4,
          Op.remove [97]] = true ∧
    (with_key [97]
        (slot_chain { array := [[], [⟨[97], 3⟩, ⟨[97], 1⟩], [⟨[98], 2⟩], []],
                      N := 4, M := 4, free_data := false, calls := [] } [97])).map NODE.data =
      newest_first [97] []
        [Op.insert [97] 1, Op.insert [98] 2, Op.insert [97] 3, Op.insert [97] 4,
          Op.remove [97]] ∧
    ((∃ e ∈ all_entries { array := [[], [⟨[97], 3⟩, ⟨[97], 1⟩], [⟨[98], 2⟩], []],
                          N := 4, M := 4, free_data := false, calls := [] }, e.key = [97]) →
      hash_table_get { array := [[], [⟨[97], 3⟩, ⟨[97], 1⟩], [⟨[98], 2⟩], []],
                       N := 4, M := 4, free_data := false, calls := [] } [97] =
        some ((newest_first [97] []
          [Op.insert [97] 1, Op.insert [98] 2, Op.insert [97] 3, Op.insert [97] 4,
            Op.remove [97]]).headD NULL)) :=
  ⟨by decide, by decide, by decide,
    C7_last_inserted_wins 1 false
      [Op.insert [97] 1, Op.insert [98] 2, Op.insert [97] 3, Op.insert [97] 4, Op.remove [97]]
      _ [97] (by decide) (by decide) (by decide)⟩

/-! ## Resize -/

theorem step_counters (t t1 : HASH_TABLE) (op : Op) (hwf : WF t)
    (hs : step t op = some t1) :
    (t1.N = t.N + 1 ∧
        t1.M = (if get_load_factor_alpha t > MAX_LOAD_FACTOR then 2 * t.M else t.M) ∧
        ∃ key data, op = Op.insert key data) ∨
      (t1.N = t.N ∧ t1.M = t.M ∧ ∃ key, op = Op.remove key) := by
  cases op with
  | insert key data =>
    obtain ⟨_, hN, hM, _⟩ := insert_spec t t1 key data hwf hs
    exact Or.inl ⟨hN, hM, key, data, rfl⟩
  | remove key =>
    obtain ⟨r, hrm⟩ := step_remove_some t t1 key hs
    obtain ⟨_, hN, hM, _⟩ := remove_spec t t1 hwf key r hrm
    exact Or.inr ⟨hN, hM, key, rfl⟩

theorem step_capacity_le (t t1 : HASH_TABLE) (op : Op) (hwf : WF t)
    (hs : step t op = some t1) : t.M ≤ t1.M := by
  rcases step_counters t t1 op hwf hs with ⟨_, h, _⟩ | ⟨_, h, _⟩
  · rw [h]
    split <;> omega
  · rw [h]

theorem run_capacity (t0 t : HASH_TABLE) (ops : List Op) (hwf : WF t0)
    (hrun : run t0 ops = some t) : ∃ k, t.M = t0.M * 2 ^ k := by
  induction ops generalizing t0 with
  | nil =>
    simp only [run, Option.some.injEq] at hrun
    exact ⟨0, by rw [← hrun]; simp⟩
  | cons op ops ih =>
    obtain ⟨t1, hs, hr⟩ := run_cons t0 op ops t hrun
    obtain ⟨k, hk⟩ := ih t1 (step_wf t0 t1 op hwf hs) hr
    rcases step_counters t0 t1 op hwf hs with ⟨_, hM, _⟩ | ⟨_, hM, _⟩
    · by_cases hc : get_load_factor_alpha t0 > MAX_LOAD_FACTOR
      · rw [if_pos hc] at hM
        exact ⟨k + 1, by rw [hk, hM, pow_succ]; ring⟩
      · rw [if_neg hc] at hM
        exact ⟨k, by rw [hk, hM]⟩
    · exact ⟨k, by rw [hk, hM]⟩

theorem run_capacity_le (t0 t : HASH_TABLE) (ops : List Op) (hwf : WF t0)
    (hrun : run t0 ops = some t) : t0.M ≤ t.M := by
  obtain ⟨k, hk⟩ := run_capacity t0 t ops hwf hrun
  rw [hk]
  exact Nat.le_mul_of_pos_right _ (Nat.two_pow_pos k)

theorem step_load_bound (t t1 : HASH_TABLE) (op : Op) (hwf : WF t)
    (hb : 4 * t.N ≤ 3 * t.M + 4) (hsmall : t.M ≤ 8388608) (hs : step t op = some t1) :
    4 * t1.N ≤ 3 * t1.M + 4 := by
  have hpos := hwf.2.1
  have hiff := load_factor_gt_iff t hpos hsmall (by omega)
  rcases step_counters t t1 op hwf hs with ⟨hN, hM, _⟩ | ⟨hN, hM, _⟩
  · rw [hN, hM]
    by_cases hc : get_load_factor_alpha t > MAX_LOAD_FACTOR
    · rw [if_pos hc]
      omega
    · rw [if_neg hc]
      have : ¬ 3 * t.M < 4 * t.N := fun hh => hc (hiff.mpr hh)
      omega
  · rw [hN, hM]
    exact hb

theorem run_load_bound (t0 t : HASH_TABLE) (ops : List Op) (hwf : WF t0)
    (hb : 4 * t0.N ≤ 3 * t0.M + 4) (hsmall : t.M ≤ 8388608) (hrun : run t0 ops = some t) :
    4 * t.N ≤ 3 * t.M + 4 := by
  induction ops generalizing t0 with
  | nil =>
    simp only [run, Option.some.injEq] at hrun
    exact hrun ▸ hb
  | cons op ops ih =>
    obtain ⟨t1, hs, hr⟩ := run_cons t0 op ops t hrun
    have hwf1 := step_wf t0 t1 op hwf hs
    have h1 : t1.M ≤ t.M := run_capacity_le t1 t ops hwf1 hr
    have h0 : t0.M ≤ t1.M := step_capacity_le t0 t1 op hwf hs
    exact ih t1 hwf1 (step_load_bound t0 t1 op hwf hb (by omega) hs) hr

theorem reachable_load_bound (t : HASH_TABLE) (hr : Reachable t) (hsmall : t.M ≤ 8388608) :
    4 * t.N ≤ 3 * t.M + 4 := by
  obtain ⟨M, fd, ops, hM, hrun⟩ := hr
  exact run_load_bound _ t ops (create_wf M fd hM) (by simp [hash_table_create]) hsmall hrun

theorem insert_no_resize (t : HASH_TABLE) (k : Key) (d : Data)
    (hload : ¬ get_load_factor_alpha t > MAX_LOAD_FACTOR) :
    hash_table_insert t k d =
      (push_front t.array (_hash_string_efficient k t.M) (new_node k d)).map
        (fun a => { t with array := a, N := t.N + 1 }) := by
  unfold hash_table_insert
  rw [if_neg hload]
  simp only
  cases push_front t.array (_hash_string_efficient k t.M) (new_node k d) <;> rfl

theorem insert_resize (t : HASH_TABLE) (k : Key) (d : Data)
    (hload : get_load_factor_alpha t > MAX_LOAD_FACTOR) :
    hash_table_insert t k d =
      (hash_table_resize t).bind (fun t0 =>
        (push_front t0.array (_hash_string_efficient k t0.M) (new_node k d)).map
          (fun a => { t0 with array := a, N := t0.N + 1 })) := by
  unfold hash_table_insert
  rw [if_pos hload]
  cases hash_table_resize t with
  | none => rfl
  | some t0 =>
    simp only [Option.some_bind]
    cases push_front t0.array (_hash_string_efficient k t0.M) (new_node k d) <;> rfl

/-! ## A large table -/

theorem fill_create (m : Nat) (fd : Bool) (d : Data) :
    hash_table_create (m + 1) fd = filled_table 0 m fd d := by
  simp [hash_table_create, filled_table, List.replicate_succ]

theorem fill_insert (n m : Nat) (fd : Bool) (d : Data)
    (h : ¬ get_load_factor_alpha (filled_table n m fd d) > MAX_LOAD_FACTOR) :
    hash_table_insert (filled_table n m fd d) [] d = some (filled_table (n + 1) m fd d) := by
  rw [insert_no_resize _ _ _ h]
  have hidx : _hash_string_efficient [] ((filled_table n m fd d).M : Int) = 0 := rfl
  rw [hidx, push_front_defined _ 0 _ (le_refl 0)
    (by simp [filled_table])]
  simp [filled_table, bucket, List.replicate_succ]

theorem run_fill (m : Nat) (fd : Bool) (d : Data) (n j : Nat)
    (h : ∀ i, j ≤ i → i < j + n →
      ¬ get_load_factor_alpha (filled_table i m fd d) > MAX_LOAD_FACTOR) :
    run (filled_table j m fd d) (List.replicate n (Op.insert [] d)) =
      some (filled_table (j + n) m fd d) := by
  induction n generalizing j with
  | zero => rfl
  | succ n ih =>
    rw [List.replicate_succ, run]
    simp only [step]
    rw [fill_insert j m fd d (h j (le_refl j) (by omega))]
    simp only
    rw [ih (j + 1) (fun i h1 h2 => h i (by omega) (by omega))]
    congr 2
    omega

theorem filled_reachable (n m : Nat) (fd : Bool) (d : Data)
    (h : ∀ i, i < n → ¬ get_load_factor_alpha (filled_table i m fd d) > MAX_LOAD_FACTOR) :
    Reachable (filled_table n m fd d) := by
  refine ⟨m + 1, fd, List.replicate n (Op.insert [] d), Nat.succ_pos m, ?_⟩
  rw [fill_create m fd d, run_fill m fd d n 0 (fun i _ h2 => h i (by omega))]
  congr 2
  omega

/-- With 8388609 slots, `N` inserts of the empty key leave the load factor test
false for every `N` up to 6291457. -/
theorem filled_no_resize (i : Nat) (fd : Bool) (d : Data) (hi : i ≤ 6291457) :
    ¬ get_load_factor_alpha (filled_table i 8388608 fd d) > MAX_LOAD_FACTOR := by
  rw [load_factor_gt_exact _ (Nat.succ_pos 8388608)
    (show 8388608 + 1 < 16777216 by norm_num)
    (show i < 16777216 by omega)]
  show ¬ 25165825 * (8388608 + 1) < 33554432 * i
  omega

/-! ## Insert and the load factor -/

/-- C10 (counterexample).  On a table created with capacity 4, after inserting
"a", "b", "c", "d" in that order the capacity is 4, not 8. -/
theorem C10_counterexample :
    run (hash_table_create 4 false)
        [Op.insert [97] 1, Op.insert [98] 2, Op.insert [99] 3, Op.insert [100] 4] =
      some { array := [[⟨[100], 4⟩], [⟨[97], 1⟩], [⟨[98], 2⟩], [⟨[99], 3⟩]],
             N := 4, M := 4, free_data := false, calls := [] } ∧
    (run (hash_table_create 4 false)
        [Op.insert [97] 1, Op.insert [98] 2, Op.insert [99] 3, Op.insert [100] 4]).map
      HASH_TABLE.M ≠ some 8 := by
  refine ⟨by decide, by decide⟩

/-- C10 (scenario, amended).  On a table created with capacity 4, whatever the
data: after inserting "a", "b", "c" the load factor is not above 0.75 (`N = 3`,
`M = 4`), so the 4th insert, of "d", does not resize and leaves `M = 4` with
`N = 4`; it is the 5th insert that doubles the capacity to 8. -/
theorem C10_scenario (fd : Bool) (d1 d2 d3 d4 d5 : Data) :
    run (hash_table_create 4 fd) [Op.insert [97] d1, Op.insert [98] d2, Op.insert [99] d3] =
      some { array := [[], [⟨[97], d1⟩], [⟨[98], d2⟩], [⟨[99], d3⟩]],
             N := 3, M := 4, free_data := fd, calls := [] } ∧
    ¬ get_load_factor_alpha
        { array := [[], [⟨[97], d1⟩], [⟨[98], d2⟩], [⟨[99], d3⟩]],
          N := 3, M := 4, free_data := fd, calls := [] } > MAX_LOAD_FACTOR ∧
    hash_table_insert
        { array := [[], [⟨[97], d1⟩], [⟨[98], d2⟩], [⟨[99], d3⟩]],
          N := 3, M := 4, free_data := fd, calls := [] } [100] d4 =
      some { array := [[⟨[100], d4⟩], [⟨[97], d1⟩], [⟨[98], d2⟩], [⟨[99], d3⟩]],
             N := 4, M := 4, free_data := fd, calls := [] } ∧
    hash_table_insert
        { array := [[⟨[100], d4⟩], [⟨[97], d1⟩], [⟨[98], d2⟩], [⟨[99], d3⟩]],
          N := 4, M := 4, free_data := fd, calls := [] } [101] d5 =
      some { array := [[], [⟨[97], d1⟩], [⟨[98], d2⟩], [⟨[99], d3⟩], [⟨[100], d4⟩],
                       [⟨[101], d5⟩], [], []],
             N := 5, M := 8, free_data := fd, calls := [] } := by
  have e1 : hash_table_insert (hash_table_create 4 fd) [97] d1 =
      some ⟨[[], [⟨[97], d1⟩], [], []], 1, 4, fd, []⟩ := by
    rw [insert_no_resize _ _ _ (fun h =>
      absurd ((load_factor_gt_iff _ (Nat.succ_pos 3) (by simp [hash_table_create])
        (by simp [hash_table_create])).mp h) (by simp [hash_table_create]))]
    dsimp only [hash_table_create]
    rfl
  have e2 : hash_table_insert ⟨[[], [⟨[97], d1⟩], [], []], 1, 4, fd, []⟩ [98] d2 =
      some ⟨[[], [⟨[97], d1⟩], [⟨[98], d2⟩], []], 2, 4, fd, []⟩ := by
    rw [insert_no_resize _ _ _ (fun h =>
      absurd ((load_factor_gt_iff _ (Nat.succ_pos 3) (by simp) (by simp)).mp h) (by simp))]
    dsimp only
    rfl
  have e3 : hash_table_insert ⟨[[], [⟨[97], d1⟩], [⟨[98], d2⟩], []], 2, 4, fd, []⟩ [99] d3 =
      some ⟨[[], [⟨[97], d1⟩], [⟨[98], d2⟩], [⟨[99], d3⟩]], 3, 4, fd, []⟩ := by
    rw [insert_no_resize _ _ _ (fun h =>
      absurd ((load_factor_gt_iff _ (Nat.succ_pos 3) (by simp) (by simp)).mp h) (by simp))]
    dsimp only
    rfl
  have h3 : ¬ get_load_factor_alpha
      ⟨[[], [⟨[97], d1⟩], [⟨[98], d2⟩], [⟨[99], d3⟩]], 3, 4, fd, []⟩ > MAX_LOAD_FACTOR :=
    fun h =>
      absurd ((load_factor_gt_iff _ (Nat.succ_pos 3) (by simp) (by simp)).mp h) (by simp)
  have h4 : get_load_factor_alpha
      ⟨[[⟨[100], d4⟩], [⟨[97], d1⟩], [⟨[98], d2⟩], [⟨[99], d3⟩]], 4, 4, fd, []⟩ >
        MAX_LOAD_FACTOR :=
    (load_factor_gt_iff _ (Nat.succ_pos 3) (by simp) (by simp)).mpr (by simp)
  refine ⟨?_, h3, ?_, ?_⟩
  · have s1 : step (hash_table_create 4 fd) (Op.insert [97] d1) =
        some ⟨[[], [⟨[97], d1⟩], [], []], 1, 4, fd, []⟩ := e1
    have s2 : step ⟨[[], [⟨[97], d1⟩], [], []], 1, 4, fd, []⟩ (Op.insert [98] d2) =
        some ⟨[[], [⟨[97], d1⟩], [⟨[98], d2⟩], []], 2, 4, fd, []⟩ := e2
    have s3 : step ⟨[[], [⟨[97], d1⟩], [⟨[98], d2⟩], []], 2, 4, fd, []⟩ (Op.insert [99] d3) =
        some ⟨[[], [⟨[97], d1⟩], [⟨[98], d2⟩], [⟨[99], d3⟩]], 3, 4, fd, []⟩ := e3
    rw [run_cons_eq _ _ _ _ s1, run_cons_eq _ _ _ _ s2, run_cons_eq _ _ _ _ s3]
    rfl
  · rw [insert_no_resize _ _ _ h3]
    dsimp only
    rfl
  · rw [insert_resize _ _ _ h4]
    have hrs : hash_table_resize
        ⟨[[⟨[100], d4⟩], [⟨[97], d1⟩], [⟨[98], d2⟩], [⟨[99], d3⟩]], 4, 4, fd, []⟩ =
        some ⟨[[], [⟨[97], d1⟩], [⟨[98], d2⟩], [⟨[99], d3⟩], [⟨[100], d4⟩], [], [], []],
          4, 8, fd, []⟩ := by
      dsimp only [hash_table_resize, Nat.reduceMul]
      rfl
    rw [hrs]
    dsimp only [Option.some_bind]
    rfl

/-- C11 (counterexample).  On the reachable table with `N = 3`, `M = 4` the
insert of "d" does not double the capacity and leaves `N = 4`, `M = 4`, a load
factor above 0.75; on the reachable table with `N = 1`, `M = 1` the insert of
"b" doubles the capacity and still leaves `N = 2`, `M = 2`, a load factor above
0.75; and on the reachable table with `N = 6291457`, `M = 8388609` the insert of
"" does not double the capacity and leaves `N = 6291458`, where even
`4*N ≤ 3*M + 4` fails. -/
theorem C11_counterexample :
    Reachable { array := [[], [⟨[97], 1⟩], [⟨[98], 2⟩], [⟨[99], 3⟩]],
                N := 3, M := 4, free_data := false, calls := [] } ∧
    hash_table_insert { array := [[], [⟨[97], 1⟩], [⟨[98], 2⟩], [⟨[99], 3⟩]],
                        N := 3, M := 4, free_data := false, calls := [] } [100] 4 =
      some { array := [[⟨[100], 4⟩], [⟨[97], 1⟩], [⟨[98], 2⟩], [⟨[99], 3⟩]],
             N := 4, M := 4, free_data := false, calls := [] } ∧
    get_load_factor_alpha { array := [[⟨[100], 4⟩], [⟨[97], 1⟩], [⟨[98], 2⟩], [⟨[99], 3⟩]],
                            N := 4, M := 4, free_data := false, calls := [] } >
      MAX_LOAD_FACTOR ∧
    Reachable { array := [[⟨[97], 1⟩]], N := 1, M := 1, free_data := false, calls := [] } ∧
    hash_table_insert { array := [[⟨[97], 1⟩]],
                        N := 1, M := 1, free_data := false, calls := [] } [98] 2 =
      some { array := [[⟨[98], 2⟩], [⟨[97], 1⟩]],
             N := 2, M := 2, free_data := false, calls := [] } ∧
    get_load_factor_alpha { array := [[⟨[98], 2⟩], [⟨[97], 1⟩]],
                            N := 2, M := 2, free_data := false, calls := [] } >
      MAX_LOAD_FACTOR ∧
    Reachable (filled_table 6291457 8388608 true 0) ∧
    hash_table_insert (filled_table 6291457 8388608 true 0) [] 0 =
      some (filled_table 6291458 8388608 true 0) ∧
    HASH_TABLE.N (filled_table 6291458 8388608 true 0) = 6291458 ∧
    HASH_TABLE.M (filled_table 6291458 8388608 true 0) = 8388609 ∧
    ¬ 4 * 6291458 ≤ 3 * 8388609 + 4 :=
  ⟨⟨4, false, [Op.insert [97] 1, Op.insert [98] 2, Op.insert [99] 3], by decide, by decide⟩,
    by decide, by decide,
    ⟨1, false, [Op.insert [97] 1], by decide, by decide⟩, by decide, by decide,
    filled_reachable 6291457 8388608 true 0
      (fun i hi => filled_no_resize i true 0 (by omega)),
    fill_insert 6291457 8388608 true 0 (filled_no_resize 6291457 true 0 (le_refl _)),
    rfl, rfl, by norm_num⟩

/-- C11 (load factor after an insert, amended).  After a `hash_table_insert` on a
reachable table of capacity `M ≤ 2^23`, with or without a capacity doubling, the
count before the insert is within the threshold of the capacity after it:
`(N'-1)/M' ≤ 0.75` for the counters `N'`, `M'` after the insert, that is
`4*N' ≤ 3*M' + 4`. -/
theorem C11_load_factor_after_insert (t t1 : HASH_TABLE) (k : Key) (d : Data)
    (hr : Reachable t) (hsmall : t.M ≤ 8388608) (h : hash_table_insert t k d = some t1) :
    t1.N = t.N + 1 ∧ (t1.M = t.M ∨ t1.M = 2 * t.M) ∧ 4 * t1.N ≤ 3 * t1.M + 4 ∧
      ((t1.N : ℚ) - 1) / (t1.M : ℚ) ≤ MAX_LOAD_FACTOR := by
  have hwf := reachable_wf t hr
  have hb := reachable_load_bound t hr hsmall
  have hpos := hwf.2.1
  have hiff := load_factor_gt_iff t hpos hsmall (by omega)
  obtain ⟨hwf1, hN, hM, _⟩ := insert_spec t t1 k d hwf h
  have hbound : 4 * t.N ≤ 3 * t1.M := by
    rw [hM]
    by_cases hc : get_load_factor_alpha t > MAX_LOAD_FACTOR
    · rw [if_pos hc]
      omega
    · rw [if_neg hc]
      have : ¬ 3 * t.M < 4 * t.N := fun hh => hc (hiff.mpr hh)
      omega
  refine ⟨hN, ?_, by omega, ?_⟩
  · rw [hM]
    split
    · exact Or.inr rfl
    · exact Or.inl rfl
  · have hq : (0 : ℚ) < (t1.M : ℚ) := by exact_mod_cast hwf1.2.1
    have hcast : ((4 * t.N : ℕ) : ℚ) ≤ ((3 * t1.M : ℕ) : ℚ) := by exact_mod_cast hbound
    push_cast at hcast
    rw [hN, MAX_LOAD_FACTOR, div_le_iff₀ hq]
    push_cast
    linarith

/-- C11 on the table with `N = 3`, `M = 4`: after the insert of "d",
`4*4 ≤ 3*4 + 4`. -/
theorem C11_load_factor_after_insert_witness :
    Reachable { array := [[], [⟨[97], 1⟩], [⟨[98], 2⟩], [⟨[99], 3⟩]],
                N := 3, M := 4, free_data := false, calls := [] } ∧
    4 ≤ 8388608 ∧
    hash_table_insert { array := [[], [⟨[97], 1⟩], [⟨[98], 2⟩], [⟨[99], 3⟩]],
                        N := 3, M := 4, free_data := false, calls := [] } [100] 4 =
      some { array := [[⟨[100], 4⟩], [⟨[97], 1⟩], [⟨[98], 2⟩], [⟨[99], 3⟩]],
             N := 4, M := 4, free_data := false, calls := [] } ∧
    4 * 4 ≤ 3 * 4 + 4 ∧ (((4 : ℕ) : ℚ) - 1) / ((4 : ℕ) : ℚ) ≤ MAX_LOAD_FACTOR :=
  have hreach : Reachable ⟨[[], [⟨[97], 1⟩], [⟨[98], 2⟩], [⟨[99], 3⟩]], 3, 4, false, []⟩ :=
    ⟨4, false, [Op.insert [97] 1, Op.insert [98] 2, Op.insert [99] 3], by decide, by decide⟩
  have hins : hash_table_insert ⟨[[], [⟨[97], 1⟩], [⟨[98], 2⟩], [⟨[99], 3⟩]], 3, 4, false, []⟩
      [100] 4 =
      some ⟨[[⟨[100], 4⟩], [⟨[97], 1⟩], [⟨[98], 2⟩], [⟨[99], 3⟩]], 4, 4, false, []⟩ := by
    decide
  have h := C11_load_factor_after_insert _ _ [100] 4 hreach (by decide) hins
  ⟨hreach, by decide, hins, h.2.2.1, h.2.2.2⟩

/-! ## The count and the capacity -/

/-- C12 (failing run).  `hash_table_create(4)`, insert ("a", 1), remove "a": the
remove returns `TRUE` and unlinks the node, the table holds no node, and `N` is
still 1. -/
theorem C12_remove_keeps_count :
    hash_table_insert (hash_table_create 4 false) [97] 1 =
      some { array := [[], [⟨[97], 1⟩], [], []],
             N := 1, M := 4, free_data := false, calls := [] } ∧
    hash_table_remove { array := [[], [⟨[97], 1⟩], [], []],
                        N := 1, M := 4, free_data := false, calls := [] } [97] =
      some (TRUE, { array := [[], [], [], []],
                    N := 1, M := 4, free_data := false, calls := [] }) ∧
    (all_entries { array := [[], [], [], []],
                   N := 1, M := 4, free_data := false, calls := [] }).length = 0 ∧
    HASH_TABLE.N { array := [[], [], [], []],
                   N := 1, M := 4, free_data := false, calls := [] } = 1 := by
  refine ⟨by decide, by decide, by decide, rfl⟩

/-- C13 (capacity).  After `hash_table_create` with `M0 > 0` and any sequence of
inserts and removes, `M` is positive and equals `M0 * 2^k` for some `k`; a
further call never decreases `M`, and `hash_table_remove` leaves `M` as it is. -/
theorem C13_capacity (M0 : Nat) (fd : Bool) (ops : List Op) (t : HASH_TABLE)
    (hM : 0 < M0) (hrun : run (hash_table_create M0 fd) ops = some t) :
    0 < t.M ∧ (∃ k, t.M = M0 * 2 ^ k) ∧
      (∀ op t1, step t op = some t1 → t.M ≤ t1.M) ∧
      (∀ key r t1, hash_table_remove t key = some (r, t1) → t1.M = t.M) := by
  have hwf0 := create_wf M0 fd hM
  have hwf := run_wf _ t ops hwf0 hrun
  refine ⟨hwf.2.1, run_capacity _ t ops hwf0 hrun, ?_, ?_⟩
  · intro op t1 hs
    rcases step_counters t t1 op hwf hs with ⟨_, h, _⟩ | ⟨_, h, _⟩
    · rw [h]
      split <;> omega
    · rw [h]
  · intro key r t1 hrm
    exact (remove_spec t t1 hwf key r hrm).2.2.1

/-- C13 at initial capacity 3: after four inserts, a remove and a fifth insert
the capacity is `6 = 3 * 2^1`. -/
theorem C13_capacity_witness :
    0 < 3 ∧
    run (hash_table_create 3 false)
        [Op.insert [97] 1, Op.insert [98] 2, Op.insert [99] 3, Op.insert [100] 4,
          Op.remove [97], Op.insert [101] 5] =
      some { array := [[], [], [⟨[98], 2⟩], [⟨[99], 3⟩], [⟨[100], 4⟩], [⟨[101], 5⟩]],
             N := 5, M := 6, free_data := false, calls := [] } ∧
    0 < 6 ∧ ∃ k, 6 = 3 * 2 ^ k :=
  have h := C13_capacity 3 false
    [Op.insert [97] 1, Op.insert [98] 2, Op.insert [99] 3, Op.insert [100] 4,
      Op.remove [97], Op.insert [101] 5]
    ⟨[[], [], [⟨[98], 2⟩], [⟨[99], 3⟩], [⟨[100], 4⟩], [⟨[101], 5⟩]], 5, 6, false, []⟩
    (by decide) (by decide)
  ⟨by decide, by decide, h.1, h.2.1⟩

/-! ## The hash functions -/

/-- C14 (failing inputs).  With `M = 4` the one-byte key of `char` value `-61`
(byte `0xC3` where `char` is signed) hashes to `-1`; with `M = 2147483647` the
key of five bytes `127` overflows the 32-bit accumulator and hashes to a negative
number; `hash_table_insert` and `hash_table_get` then index the slot array out of
bounds. -/
theorem C14_hash_negative :
    _hash_string_efficient [-61] 4 = -1 ∧
    _hash_string_efficient [127, 127, 127, 127, 127] 2147483647 = -1059159681 ∧
    hash_table_insert (hash_table_create 4 false) [-61] 1 = none ∧
    hash_table_get (hash_table_create 4 false) [-61] = none := by
  refine ⟨by decide, by decide, by decide, by decide⟩

/-- C15 (failing inputs).  With `M = 1` the statement `a = a*b % (M-1)` takes a
remainder by zero for every non-empty key, so `_hash_string_pseudo_universal`
is undefined there; only the empty key, which never enters the loop, returns. -/
theorem C15_pseudo_universal_capacity_one :
    (∀ (c : Int) (str : Key), _hash_string_pseudo_universal (c :: str) 1 = none) ∧
    _hash_string_pseudo_universal [97] 1 = none ∧
    _hash_string_pseudo_universal [] 1 = some 0 := by
  refine ⟨?_, by decide, by decide⟩
  intro c str
  simp [_hash_string_pseudo_universal, pseudo_universal_loop]

/-- C17 (failing inputs).  On the table holding only "a": `hash_table_contains`
returns `1` for the key "a", which is found, and `0` for the key "b", which is not;
these are `TRUE` and `FALSE` of `hash_table.h`, not `0` and `-1`. -/
theorem C17_contains_values :
    run (hash_table_create 4 false) [Op.insert [97] 1] =
      some { array := [[], [⟨[97], 1⟩], [], []],
             N := 1, M := 4, free_data := false, calls := [] } ∧
    hash_table_contains { array := [[], [⟨[97], 1⟩], [], []],
                          N := 1, M := 4, free_data := false, calls := [] } [97] = some 1 ∧
    hash_table_contains { array := [[], [⟨[97], 1⟩], [], []],
                          N := 1, M := 4, free_data := false, calls := [] } [98] = some 0 ∧
    TRUE = 1 ∧ FALSE = 0 := by
  refine ⟨by decide, by decide, by decide, rfl, rfl⟩

theorem wrap32_of_range (x : Int) (h0 : -2147483648 ≤ x) (h1 : x ≤ 2147483647) :
    wrap32 x = x := by
  unfold wrap32
  rw [Int.emod_eq_of_lt (by omega) (by omega)]
  omega

theorem hash_step_no_overflow (M h c : Int) (hM : 0 < M) (hsmall : 127 * M ≤ 2147483647)
    (h0 : 0 ≤ h) (hlt : h < M) (hc0 : 0 ≤ c) (hc1 : c ≤ 127) :
    Int.tmod (wrap32 (wrap32 (127 * h) + c)) M = (127 * h + c) % M := by
  rw [wrap32_of_range (127 * h) (by omega) (by omega),
    wrap32_of_range (127 * h + c) (by omega) (by omega),
    Int.tmod_eq_emod (by omega) (by omega)]

theorem hash_loop_closed_form (M : Int) (hM : 0 < M) (hsmall : 127 * M ≤ 2147483647)
    (str : Key) (hchars : ∀ c ∈ str, 0 ≤ c ∧ c ≤ 127) (h : Int) (h0 : 0 ≤ h) (hlt : h < M) :
    hash_loop M h str = (h * 127 ^ str.length + poly_value str) % M := by
  induction str generalizing h with
  | nil =>
    simp only [hash_loop, List.length_nil, pow_zero, mul_one, poly_value, add_zero]
    exact (Int.emod_eq_of_lt h0 hlt).symm
  | cons c str ih =>
    have hc := hchars c (List.mem_cons_self c str)
    have hrest : ∀ x ∈ str, 0 ≤ x ∧ x ≤ 127 :=
      fun x hx => hchars x (List.mem_cons_of_mem c hx)
    rw [hash_loop, hash_step_no_overflow M h c hM hsmall h0 hlt hc.1 hc.2,
      ih hrest _ (Int.emod_nonneg _ (by omega)) (Int.emod_lt_of_pos _ hM)]
    have hmod : ((127 * h + c) % M * 127 ^ str.length + poly_value str) % M =
        ((127 * h + c) * 127 ^ str.length + poly_value str) % M :=
      ((Int.mod_modEq (127 * h + c) M).mul_right (127 ^ str.length)).add_right
        (poly_value str)
    rw [hmod, poly_value, List.length_cons, pow_succ]
    congr 1
    ring

/-- C20 (closed form).  For `M > 0` with `127*(M-1) + 127` within the range of a
32-bit `int` and a key of bytes `c_0 ... c_(n-1)` in `0..127`, the iterative
`_hash_string_efficient(str, M)` equals
`(c_0*127^(n-1) + ... + c_(n-1)) mod M`, a value in `0..M-1`; the empty key
hashes to `0`. -/
theorem C20_hash_closed_form (M : Int) (str : Key) (hM : 0 < M)
    (hsmall : 127 * (M - 1) + 127 ≤ 2147483647)
    (hchars : ∀ c ∈ str, 0 ≤ c ∧ c ≤ 127) :
    _hash_string_efficient str M = poly_value str % M ∧
      0 ≤ _hash_string_efficient str M ∧ _hash_string_efficient str M < M ∧
      _hash_string_efficient [] M = 0 := by
  have h := hash_loop_closed_form M hM (by omega) str hchars 0 (le_refl 0) hM
  simp only [zero_mul, zero_add] at h
  refine ⟨h, ?_, ?_, rfl⟩
  · rw [_hash_string_efficient, h]
    exact Int.emod_nonneg _ (by omega)
  · rw [_hash_string_efficient, h]
    exact Int.emod_lt_of_pos _ hM

/-- C20 on the key "hello" with `M = 1000`: both sides are 106. -/
theorem C20_hash_closed_form_witness :
    (0 : Int) < 1000 ∧ 127 * ((1000 : Int) - 1) + 127 ≤ 2147483647 ∧
    (∀ c ∈ ([104, 101, 108, 108, 111] : Key), 0 ≤ c ∧ c ≤ 127) ∧
    _hash_string_efficient [104, 101, 108, 108, 111] 1000 = 106 ∧
    poly_value [104, 101, 108, 108, 111] % 1000 = 106 ∧
    _hash_string_efficient [104, 101, 108, 108, 111] 1000 =
      poly_value [104, 101, 108, 108, 111] % 1000 :=
  ⟨by decide, by decide, by decide, by decide, by decide,
    (C20_hash_closed_form 1000 [104, 101, 108, 108, 111] (by decide) (by decide)
      (by decide)).1⟩

/-! ## Destructor calls -/

theorem remove_calls (t t1 : HASH_TABLE) (hwf : WF t) (key : Key) (r : Int)
    (h : hash_table_remove t key = some (r, t1)) :
    (r = FALSE ∧ t1 = t) ∨
    (r = TRUE ∧ ∃ pre e post, slot_chain t key = pre ++ e :: post ∧ e.key = key ∧
      (∀ x ∈ pre, x.key ≠ key) ∧ slot_chain t1 key = pre ++ post ∧
      t1.free_data = t.free_data ∧ t1.calls = free_node e t.free_data ++ t.calls) := by
  have h0 := remove_some_index t key r t1 h
  have hlt := (Int.toNat_lt h0).mpr (index_valid t hwf key h0).2
  rcases remove_cases t hwf key h0 with ⟨_, hr⟩ | ⟨pre, e, post, hsl, he, hpre, hr⟩
  · rw [hr] at h
    simp only [Option.some.injEq, Prod.mk.injEq] at h
    exact Or.inl ⟨h.1.symm, h.2.symm⟩
  · rw [hr] at h
    simp only [Option.some.injEq, Prod.mk.injEq] at h
    obtain ⟨rfl, rfl⟩ := h
    refine Or.inr ⟨rfl, pre, e, post, hsl, he, hpre, ?_, rfl, rfl⟩
    simp only [slot_chain]
    exact bucket_set_self _ _ _ hlt

theorem free_chain_eq (fd : Bool) (l : List NODE) (calls : List Data) :
    free_chain fd l calls =
      (if fd = true then (l.map NODE.data).reverse else []) ++ calls := by
  induction l generalizing calls with
  | nil => simp [free_chain]
  | cons e l ih =>
    rw [free_chain, ih]
    cases fd <;> simp [free_node]

theorem free_slots_eq (fd : Bool) (slots : List (List NODE)) (calls : List Data) :
    free_slots fd slots calls =
      (if fd = true then (slots.flatten.map NODE.data).reverse else []) ++ calls := by
  induction slots generalizing calls with
  | nil => simp [free_slots]
  | cons c slots ih =>
    rw [free_slots, ih, free_chain_eq]
    cases fd <;> simp

theorem step_free_data (t t1 : HASH_TABLE) (op : Op) (hwf : WF t)
    (hs : step t op = some t1) :
    t1.free_data = t.free_data ∧ (t.free_data = false → t1.calls = t.calls) := by
  cases op with
  | insert key data =>
    obtain ⟨_, _, _, hfd, hcalls, _⟩ := insert_spec t t1 key data hwf hs
    exact ⟨hfd, fun _ => hcalls⟩
  | remove key =>
    obtain ⟨r, hrm⟩ := step_remove_some t t1 key hs
    rcases remove_calls t t1 hwf key r hrm with ⟨_, rfl⟩ | ⟨_, _, e, _, _, _, _, _, hfd, hcalls⟩
    · exact ⟨rfl, fun _ => rfl⟩
    · refine ⟨hfd, fun hno => ?_⟩
      rw [hcalls, hno]
      rfl

theorem run_free_data (t0 t : HASH_TABLE) (ops : List Op) (hwf : WF t0)
    (hrun : run t0 ops = some t) :
    t.free_data = t0.free_data ∧ (t0.free_data = false → t.calls = t0.calls) := by
  induction ops generalizing t0 with
  | nil =>
    simp only [run, Option.some.injEq] at hrun
    subst hrun
    exact ⟨rfl, fun _ => rfl⟩
  | cons op ops ih =>
    obtain ⟨t1, hs, hr⟩ := run_cons t0 op ops t hrun
    obtain ⟨h1, h2⟩ := step_free_data t0 t1 op hwf hs
    obtain ⟨h3, h4⟩ := ih t1 (step_wf t0 t1 op hwf hs) hr
    refine ⟨h3.trans h1, fun hno => ?_⟩
    rw [h4 (h1.trans hno), h2 hno]

/-- C16 (destructor discipline).  For a table reached from
`hash_table_create(M, free_data)`, with the destructor calls logged in `calls`:
a successful `hash_table_remove` unlinks the first node with the key and adds
exactly one call, on that node's data, when a destructor is configured and none
otherwise; a failing remove, `hash_table_resize` and `hash_table_insert` add no
call; `hash_table_free` adds one call per node of the table, on its data, when a
destructor is configured and none otherwise; and without a destructor the log is
empty throughout. -/
theorem C16_destructor_discipline (M : Nat) (fd : Bool) (ops : List Op) (t : HASH_TABLE)
    (hM : 0 < M) (hrun : run (hash_table_create M fd) ops = some t) :
    t.free_data = fd ∧
    (∀ k t1, hash_table_remove t k = some (TRUE, t1) →
      ∃ pre e post, slot_chain t k = pre ++ e :: post ∧ e.key = k ∧
        (∀ x ∈ pre, x.key ≠ k) ∧ slot_chain t1 k = pre ++ post ∧
        t1.calls = (if fd = true then [e.data] else []) ++ t.calls) ∧
    (∀ k t1, hash_table_remove t k = some (FALSE, t1) → t1.calls = t.calls) ∧
    (∀ t1, hash_table_resize t = some t1 → t1.calls = t.calls) ∧
    (∀ k d t1, hash_table_insert t k d = some t1 → t1.calls = t.calls) ∧
    (∃ new, hash_table_free t = new ++ t.calls ∧
      (fd = true → new.Perm ((all_entries t).map NODE.data)) ∧
      (fd = false → new = [])) ∧
    (fd = false → t.calls = [] ∧ hash_table_free t = []) := by
  have hwf0 := create_wf M fd hM
  have hwf := run_wf _ t ops hwf0 hrun
  obtain ⟨hfd, hcalls⟩ := run_free_data _ t ops hwf0 hrun
  have hfd1 : t.free_data = fd := hfd
  have hfree : hash_table_free t =
      (if fd = true then ((all_entries t).map NODE.data).reverse else []) ++ t.calls := by
    rw [hash_table_free, free_slots_eq, hfd1]
    rfl
  refine ⟨hfd1, ?_, ?_, ?_, ?_, ?_, ?_⟩
  · intro k t1 hrm
    rcases remove_calls t t1 hwf k TRUE hrm with ⟨hf, _⟩ | ⟨_, pre, e, post, h1, h2, h3, h4, _, h6⟩
    · simp [TRUE, FALSE] at hf
    · refine ⟨pre, e, post, h1, h2, h3, h4, ?_⟩
      rw [h6, hfd1]
      cases fd <;> rfl
  · intro k t1 hrm
    rcases remove_calls t t1 hwf k FALSE hrm with ⟨_, rfl⟩ | ⟨hf, _⟩
    · rfl
    · simp [TRUE, FALSE] at hf
  · intro t1 hrs
    exact (resize_spec t t1 hwf hrs).2.2.2.2.1
  · intro k d t1 hins
    exact (insert_spec t t1 k d hwf hins).2.2.2.2.1
  · refine ⟨if fd = true then ((all_entries t).map NODE.data).reverse else [], hfree, ?_, ?_⟩
    · intro h
      rw [if_pos h]
      exact List.reverse_perm _
    · intro h
      rw [h]
      rfl
  · intro h
    have hc : t.calls = [] := hcalls h
    refine ⟨hc, ?_⟩
    rw [hfree, hc, h]
    rfl

/-- C16 on a table created with a destructor and holding "e"(0), "a"(7), "a"(5),
"c"(6): removing "a" logs one call on 7, and freeing the table logs 6, 5, 7, 0. -/
theorem C16_destructor_discipline_witness :
    0 < 2 ∧
    run (hash_table_create 2 true)
        [Op.insert [97] 5, Op.insert [99] 6, Op.insert [97] 7, Op.insert [101] 0,
          Op.remove [98]] =
      some { array := [[], [⟨[101], 0⟩, ⟨[97], 7⟩, ⟨[97], 5⟩], [], [⟨[99], 6⟩]],
             N := 4, M := 4, free_data := true, calls := [] } ∧
    hash_table_remove { array := [[], [⟨[101], 0⟩, ⟨[97], 7⟩, ⟨[97], 5⟩], [], [⟨[99], 6⟩]],
                        N := 4, M := 4, free_data := true, calls := [] } [97] =
      some (TRUE, { array := [[], [⟨[101], 0⟩, ⟨[97], 5⟩], [], [⟨[99], 6⟩]],
                    N := 4, M := 4, free_data := true, calls := [7] }) ∧
    hash_table_free { array := [[], [⟨[101], 0⟩, ⟨[97], 7⟩, ⟨[97], 5⟩], [], [⟨[99], 6⟩]],
                      N := 4, M := 4, free_data := true, calls := [] } = [6, 5, 7, 0] ∧
    HASH_TABLE.free_data
      { array := [[], [⟨[101], 0⟩, ⟨[97], 7⟩, ⟨[97], 5⟩], [], [⟨[99], 6⟩]],
        N := 4, M := 4, free_data := true, calls := [] } = true :=
  ⟨by decide, by decide, by decide, by decide,
    (C16_destructor_discipline 2 true
      [Op.insert [97] 5, Op.insert [99] 6, Op.insert [97] 7, Op.insert [101] 0,
        Op.remove [98]]
      _ (by decide) (by decide)).1⟩

/-! ## Invariants of reachable tables -/

/-- C18 (slot invariant).  In a reachable table the array has `M` slots and every
node in the chain of slot `i` has `i < M` and
`_hash_string_efficient(key, M) = i` for the current capacity `M`. -/
theorem C18_slot_invariant (t : HASH_TABLE) (hr : Reachable t) :
    t.array.length = t.M ∧
      ∀ i e, e ∈ bucket t.array i →
        i < t.M ∧ _hash_string_efficient e.key t.M = (i : Int) := by
  obtain ⟨hlen, _, hinv⟩ := reachable_wf t hr
  refine ⟨hlen, fun i e he => ⟨?_, hinv i e he⟩⟩
  by_contra hge
  rw [bucket_of_length_le t.array i (by omega)] at he
  cases he

/-- C18 on a table reached through a resize from capacity 2 to 4. -/
theorem C18_slot_invariant_witness :
    Reachable { array := [[], [⟨[101], 0⟩, ⟨[97], 7⟩, ⟨[97], 5⟩], [], [⟨[99], 6⟩]],
                N := 4, M := 4, free_data := false, calls := [] } ∧
    (⟨[99], 6⟩ : NODE) ∈
      bucket [[], [⟨[101], 0⟩, ⟨[97], 7⟩, ⟨[97], 5⟩], [], [⟨[99], 6⟩]] 3 ∧
    3 < 4 ∧ _hash_string_efficient [99] (4 : Nat) = ((3 : Nat) : Int) :=
  have hreach : Reachable ⟨[[], [⟨[101], 0⟩, ⟨[97], 7⟩, ⟨[97], 5⟩], [], [⟨[99], 6⟩]],
      4, 4, false, []⟩ :=
    ⟨2, false, [Op.insert [97] 5, Op.insert [99] 6, Op.insert [97] 7, Op.insert [101] 0],
      by decide, by decide⟩
  have h := (C18_slot_invariant _ hreach).2 3 ⟨[99], 6⟩ (by decide)
  ⟨hreach, by decide, h.1, h.2⟩

/-- C19 (counterexample).  The table with `M = 8388609` and `N = 6291458` is
reached by 6291458 inserts of the empty key on a fresh table of that capacity,
none of which resizes; there `4*N = 25165832` exceeds `3*M + 4 = 25165831`. -/
theorem C19_counterexample :
    Reachable (filled_table 6291458 8388608 false 0) ∧
    HASH_TABLE.N (filled_table 6291458 8388608 false 0) = 6291458 ∧
    HASH_TABLE.M (filled_table 6291458 8388608 false 0) = 8388609 ∧
    ¬ 4 * HASH_TABLE.N (filled_table 6291458 8388608 false 0) ≤
        3 * HASH_TABLE.M (filled_table 6291458 8388608 false 0) + 4 :=
  ⟨filled_reachable 6291458 8388608 false 0
      (fun i hi => filled_no_resize i false 0 (by omega)),
    rfl, rfl, by
      show ¬ 4 * 6291458 ≤ 3 * (8388608 + 1) + 4
      norm_num⟩

/-- C19 (bounded overshoot, amended).  In every table reached from
`hash_table_create` with `M > 0` by inserts and removes whose capacity is still
`M ≤ 2^23`, `4*N ≤ 3*M + 4`. -/
theorem C19_bounded_overshoot (t : HASH_TABLE) (hr : Reachable t)
    (hsmall : t.M ≤ 8388608) :
    4 * t.N ≤ 3 * t.M + 4 := by
  obtain ⟨M, fd, ops, hM, hrun⟩ := hr
  have hwf0 := create_wf M fd hM
  have h0 : 4 * (hash_table_create M fd).N ≤ 3 * (hash_table_create M fd).M + 4 := by
    simp [hash_table_create]
  exact run_load_bound _ t ops hwf0 h0 hsmall hrun

/-- C19 on the table with `N = 4`, `M = 4`, where the bound is attained. -/
theorem C19_bounded_overshoot_witness :
    Reachable { array := [[⟨[100], 4⟩], [⟨[97], 1⟩], [⟨[98], 2⟩], [⟨[99], 3⟩]],
                N := 4, M := 4, free_data := false, calls := [] } ∧
    4 ≤ 8388608 ∧ 4 * 4 ≤ 3 * 4 + 4 :=
  have hreach : Reachable ⟨[[⟨[100], 4⟩], [⟨[97], 1⟩], [⟨[98], 2⟩], [⟨[99], 3⟩]],
      4, 4, false, []⟩ :=
    ⟨4, false, [Op.insert [97] 1, Op.insert [98] 2, Op.insert [99] 3, Op.insert [100] 4],
      by decide, by decide⟩
  ⟨hreach, by decide, C19_bounded_overshoot _ hreach (by decide)⟩

end HashTable
